import Mathlib

/-!
A verification development for the `teambition/trie-mux` URL path router
(`trie.go` and `mux/mux.go`).  The Go code is embedded shallowly:

* Go strings are modelled as `List Char` (`Str`); Go byte slicing on the
  ASCII inputs used here coincides with character slicing.
* The mutable node tree is modelled as a purely functional tree.  Go's
  `map[string]*Node` children are association lists with unique keys
  (`alGet`/`alPut` reproduce map lookup / assignment), and pointer
  mutation through a path of nodes is explicit write-back (`setLoc`).
* Go pointer identity of returned endpoint nodes is modelled by the
  *location* of the endpoint in the tree (`ChildLoc` path), which is how
  a caller can observe "the same node" in a functional reading.
* `panic` in Go is an `Except DefineErr` error value.
* `regexp.Regexp` is carried as its source string plus a matcher
  function.  `regexp.MustCompile` is modelled for the metacharacter-free
  sources appearing in this file: Go's unanchored `MatchString` is then
  substring containment.  The fixed regexes of the parser (`wordReg`,
  `suffixReg`, `doubleColonReg`, `multiSlashReg`) are translated into
  their exact character-level semantics.
-/

set_option maxRecDepth 4000
set_option linter.unnecessarySeqFocus false
set_option linter.unreachableTactic false
set_option linter.unusedTactic false

abbrev Str := List Char

/-- Go `strings.ToLower` (ASCII scope, which covers every use here). -/
def lowerStr (s : Str) : Str := s.map Char.toLower

/-- Go `strings.ToUpper` (ASCII scope). -/
def upperStr (s : Str) : Str := s.map Char.toUpper

/-- A compiled Go regular expression: its source (`regexp.Regexp.String()`)
and its `MatchString` function. -/
structure GoRegex where
  src : Str
  mat : Str → Bool

/-- Substring containment over `List Char`. -/
def containsSub (needle : Str) : Str → Bool
  | [] => needle.isEmpty
  | c :: rest => needle.isPrefixOf (c :: rest) || containsSub needle rest

/-- `regexp.MustCompile`.  The matcher models Go's unanchored
`MatchString` for the metacharacter-free sources used in this
development: a match exists iff the source occurs as a substring. -/
def mustCompile (src : Str) : GoRegex :=
  ⟨src, fun s => containsSub src s⟩

/-- `Node` of `trie.go`: name, allow, pattern, segment, suffix, endpoint,
wildcard, varyChildren, children, handlers, regex.  The `parent` back
pointer is dropped (it is only used to assemble diagnostic messages);
handlers are opaque values, modelled by `Nat` tokens. -/
inductive Node : Type where
  | mk (name allow pattern segment suffix : Str)
       (endpoint wildcard : Bool)
       (varyChildren : List Node)
       (children : List (Str × Node))
       (handlers : List (Str × Nat))
       (regex : Option GoRegex) : Node

def Node.name : Node → Str
  | .mk n _ _ _ _ _ _ _ _ _ _ => n

def Node.allow : Node → Str
  | .mk _ a _ _ _ _ _ _ _ _ _ => a

def Node.pattern : Node → Str
  | .mk _ _ p _ _ _ _ _ _ _ _ => p

def Node.segment : Node → Str
  | .mk _ _ _ s _ _ _ _ _ _ _ => s

def Node.suffix : Node → Str
  | .mk _ _ _ _ s _ _ _ _ _ _ => s

def Node.endpoint : Node → Bool
  | .mk _ _ _ _ _ e _ _ _ _ _ => e

def Node.wildcard : Node → Bool
  | .mk _ _ _ _ _ _ w _ _ _ _ => w

def Node.varyChildren : Node → List Node
  | .mk _ _ _ _ _ _ _ vc _ _ _ => vc

def Node.children : Node → List (Str × Node)
  | .mk _ _ _ _ _ _ _ _ ch _ _ => ch

def Node.handlers : Node → List (Str × Nat)
  | .mk _ _ _ _ _ _ _ _ _ h _ => h

def Node.regex : Node → Option GoRegex
  | .mk _ _ _ _ _ _ _ _ _ _ r => r

/-- A fresh node as allocated in `parseNode`: only `segment` is set. -/
def Node.blank (seg : Str) : Node :=
  .mk [] [] [] seg [] false false [] [] [] none

def Node.setWildcard : Node → Bool → Node
  | .mk n a p sg sf e _ vc ch h r, w => .mk n a p sg sf e w vc ch h r

def Node.setVaryChildren : Node → List Node → Node
  | .mk n a p sg sf e w _ ch h r, vc => .mk n a p sg sf e w vc ch h r

def Node.setChildren : Node → List (Str × Node) → Node
  | .mk n a p sg sf e w vc _ h r, ch => .mk n a p sg sf e w vc ch h r

/-- End of `Define`: `defineNode` sets `child.endpoint = true` on the last
segment and `Define` then records the original pattern if none is
recorded yet (`if node.pattern == "" { node.pattern = pattern }`). -/
def Node.markEnd : Node → Str → Node
  | .mk n a p sg sf _ w vc ch h r, pat =>
      .mk n a (if p = [] then pat else p) sg sf true w vc ch h r

/-- Association-list reading of a Go `map[string]*Node` lookup. -/
def alGet : List (Str × Node) → Str → Option Node
  | [], _ => none
  | (k, v) :: rest, key => if k = key then some v else alGet rest key

/-- Association-list reading of a Go `map[string]*Node` assignment. -/
def alPut : List (Str × Node) → Str → Node → List (Str × Node)
  | [], key, v => [(key, v)]
  | (k, w) :: rest, key, v =>
      if k = key then (key, v) :: rest else (k, w) :: alPut rest key v

/-- `Node.getChild`. -/
def Node.getChild (n : Node) (key : Str) : Option Node :=
  alGet n.children key

/-- The body of the `varyChildren` loop in `matchNode`, as a predicate:
the candidate is *not* skipped by either `continue`. -/
def varyAccepts (c : Node) (seg : Str) : Bool :=
  if c.suffix ≠ [] ∧ (seg = c.suffix ∨ ¬ List.isSuffixOf c.suffix seg) then
    false
  else
    match c.regex with
    | some r => r.mat (if c.suffix ≠ [] then seg.take (seg.length - c.suffix.length) else seg)
    | none => true

/-- The `for _, child = range parent.varyChildren` loop of `matchNode`:
return the first candidate the body does not `continue` past. -/
def varyLoop (seg : Str) : List Node → Option Node
  | [] => none
  | c :: rest => if varyAccepts c seg then some c else varyLoop seg rest

/-- `matchNode`: literal child first, then the first accepting vary child. -/
def matchNode (parent : Node) (seg : Str) : Option Node :=
  match parent.getChild seg with
  | some c => some c
  | none => varyLoop seg parent.varyChildren

/-- `Matched` of `trie.go` (fields `Node`, `Params`, `FPR`, `TSR`). -/
structure Matched where
  node : Option Node
  params : List (Str × Str)
  fpr : Str
  tsr : Str

/-- Go map assignment `Params[name] = value`. -/
def insertP : List (Str × Str) → Str → Str → List (Str × Str)
  | [], k, v => [(k, v)]
  | (k', v') :: rest, k, v =>
      if k' = k then (k, v) :: rest else (k', v') :: insertP rest k v

/-- Rebuild `path[start:end]` from the remaining segments: the segments
of a path are its `/`-separated fragments, so the tail of the path from
the current segment's start is the remaining segments joined by `/`. -/
def joinSegs : List Str → Str
  | [] => []
  | [s] => s
  | s :: rest => s ++ '/' :: joinSegs rest

/-- Go `strings.Split(s, "/")`. -/
def splitSlash : Str → List Str
  | [] => [[]]
  | c :: rest =>
      if c = '/' then [] :: splitSlash rest
      else
        match splitSlash rest with
        | [] => [[c]]
        | s :: ss => (c :: s) :: ss

/-- Go `strings.Contains(s, "//")`. -/
def containsDD : Str → Bool
  | [] => false
  | [_] => false
  | a :: b :: rest => (a = '/' ∧ b = '/') || containsDD (b :: rest)

/-- Keep a character unless it is a `/` directly following a `/`
(`prev` is the preceding character of the input). -/
def collapseAux (prev : Char) : Str → Str
  | [] => []
  | c :: rest =>
      if prev = '/' ∧ c = '/' then collapseAux c rest
      else c :: collapseAux c rest

/-- `multiSlashReg.ReplaceAllString(path, "/")`: every maximal run of
slashes collapses to a single slash (a slash is dropped exactly when it
follows another slash). -/
def collapseSlashes : Str → Str
  | [] => []
  | c :: rest => c :: collapseAux c rest

/-- `fixPath` of `trie.go`. -/
def fixPath (p : Str) : Str :=
  if containsDD p then collapseSlashes p else p

/-- The `switch` at the end of `Trie.Match` (after the segment walk, or
after the wildcard `break`). -/
def endEval (fprF tsrF dirty : Bool) (fixed : Str) (parent : Node)
    (params : List (Str × Str)) : Matched :=
  if parent.endpoint then
    if fprF ∧ dirty then ⟨none, params, fixed, []⟩
    else ⟨some parent, params, [], []⟩
  else if tsrF ∧ (parent.getChild []).isSome then
    if fprF ∧ dirty then ⟨none, params, fixed ++ ['/'], []⟩
    else ⟨none, params, [], fixed ++ ['/']⟩
  else ⟨none, params, [], []⟩

/-- The segment walk of `Trie.Match` (the `for i := 1; i <= end` loop):
`fixed` is the (possibly normalized) path, `dirty` is `fixedLen > 0`.
`fixed.dropLast` is `path[:end-1]`, `joinSegs (seg :: rest)` is
`path[start:end]`. -/
def matchLoop (ic fprF tsrF dirty : Bool) (fixed : Str) :
    Node → List Str → List (Str × Str) → Matched
  | parent, [], params => endEval fprF tsrF dirty fixed parent params
  | parent, seg :: rest, params =>
      match matchNode parent (if ic then lowerStr seg else seg) with
      | none =>
          if tsrF ∧ parent.endpoint ∧ rest = [] ∧ seg = [] then
            if fprF ∧ dirty then ⟨none, params, fixed.dropLast, []⟩
            else ⟨none, params, [], fixed.dropLast⟩
          else ⟨none, params, [], []⟩
      | some node =>
          if node.name ≠ [] then
            if node.wildcard then
              endEval fprF tsrF dirty fixed node
                (insertP params node.name (joinSegs (seg :: rest)))
            else
              matchLoop ic fprF tsrF dirty fixed node rest
                (insertP params node.name
                  (if node.suffix ≠ [] then seg.take (seg.length - node.suffix.length)
                   else seg))
          else matchLoop ic fprF tsrF dirty fixed node rest params

/-- `Trie` of `trie.go`. -/
structure Trie where
  ignoreCase : Bool
  fprOpt : Bool
  tsrOpt : Bool
  root : Node

/-- `New` with explicit option flags; `New()` in Go enables all three. -/
def Trie.new (ic fprF tsrF : Bool) : Trie :=
  ⟨ic, fprF, tsrF, Node.blank []⟩

def newDefault : Trie := Trie.new true true true

/-- `Trie.Match`.  A path that is empty or does not start with `/`
panics in Go; that is `none` here. -/
def Trie.matchPath (t : Trie) (path : Str) : Option Matched :=
  match path with
  | [] => none
  | c :: _ =>
      if c = '/' then
        let fixed := if t.fprOpt then fixPath path else path
        some (matchLoop t.ignoreCase t.fprOpt t.tsrOpt
          (decide (fixed.length < path.length)) fixed t.root
          (splitSlash (fixed.drop 1)) [])
      else none

/-! ## Define side: pattern parsing and node insertion -/

/-- The error kinds of the `panic`s raised during `Define`
(`multi-slash exist`, `invalid pattern`, `invalid pattern name … as prev
defined` / `can't define … after …`, `can't define pattern after
wildcard`).  `internal` marks branches unreachable from Go. -/
inductive DefineErr : Type where
  | multiSlash
  | invalid
  | nameConflict
  | afterWildcard
  | internal
deriving DecidableEq

/-- Go `\w` (`[0-9A-Za-z_]`, ASCII). -/
def isWordChar (c : Char) : Bool := c.isAlphanum || c = '_'

/-- `wordReg`: `^\w+$`. -/
def isWord (s : Str) : Bool := ¬ s.isEmpty && s.all isWordChar

/-- The URL-path literal character class of `suffixReg` and
`doubleColonReg`: `[A-Za-z0-9!$%&'*+,-.:;=@_~]` (the quote is written by
code point). -/
def isPathClass (c : Char) : Bool :=
  c.isAlphanum || c = '!' || c = '$' || c = '%' || c = '&' || c.toNat = 39 ||
  c = '*' || c = '+' || c = ',' || c = '-' || c = '.' || c = ':' ||
  c = ';' || c = '=' || c = '@' || c = '_' || c = '~'

/-- `doubleColonReg.MatchString`: `^::[A-Za-z0-9!$%&'*+,-.:;=@_~]*$`. -/
def isDoubleColon (s : Str) : Bool :=
  match s with
  | ':' :: ':' :: rest => rest.all isPathClass
  | _ => false

/-- `suffixReg.FindString`: the leftmost match of
`\+[A-Za-z0-9!$%&'*+,-.:;=@_~]*$`, i.e. the tail starting at the first
`+` after which every character lies in the class ("" when none). -/
def suffixFind : Str → Str
  | [] => []
  | c :: rest =>
      if c = '+' ∧ rest.all isPathClass then c :: rest else suffixFind rest

/-- Go `strings.IndexRune` (position of the first occurrence). -/
def idxOfChar (ch : Char) : Str → Option Nat
  | [] => none
  | c :: rest =>
      if c = ch then some 0 else (idxOfChar ch rest).map (· + 1)

/-- The signature by which a parametric sibling is recognised in the
reconciliation loop of `parseNode`: suffix, regex source
(`regexp.Regexp.String()`), wildcard flag. -/
abbrev VarySig := Str × Option Str × Bool

def regexSrc (r : Option GoRegex) : Option Str := r.map GoRegex.src

def Node.sig (n : Node) : VarySig := (n.suffix, regexSrc n.regex, n.wildcard)

/-- Where `parseNode` left (or found) the child: under a literal key in
`children`, or as the first signature match in `varyChildren`.  This is
the functional stand-in for the Go pointer to that child. -/
inductive ChildLoc : Type where
  | lit (key : Str)
  | vary (sg : VarySig)
deriving DecidableEq

def findVary (sg : VarySig) : List Node → Option Node
  | [] => none
  | c :: rest => if c.sig = sg then some c else findVary sg rest

def replaceVary (sg : VarySig) (v : Node) : List Node → List Node
  | [] => []
  | c :: rest => if c.sig = sg then v :: rest else c :: replaceVary sg v rest

def getLoc (parent : Node) : ChildLoc → Option Node
  | .lit key => alGet parent.children key
  | .vary sg => findVary sg parent.varyChildren

def setLoc (parent : Node) : ChildLoc → Node → Node
  | .lit key, v => parent.setChildren (alPut parent.children key v)
  | .vary sg, v => parent.setVaryChildren (replaceVary sg v parent.varyChildren)

/-- The comparison function handed to `sort.SliceStable` in `parseNode`
(`less(i, j)` = node `i` must come before node `j`). -/
def goLess (a b : Node) : Bool :=
  if a.suffix = [] ∧ b.suffix ≠ [] then false
  else if a.suffix ≠ [] ∧ b.suffix = [] then true
  else if a.regex.isSome ∧ b.regex.isNone then true
  else false

/-- Insert into a sorted list behind every element not strictly greater
(the insertion step of a stable insertion sort). -/
def insOrd (x : Node) : List Node → List Node
  | [] => [x]
  | y :: ys => if goLess x y then x :: y :: ys else y :: insOrd x ys

/-- `sort.SliceStable(s, less)`: a stable sort by `goLess`, realised as
a left-to-right insertion sort (equal elements keep insertion order). -/
def sortVary (l : List Node) : List Node :=
  l.foldl (fun acc x => insOrd x acc) []

/-- The `for _, child := range parent.varyChildren` reconciliation loop
of `parseNode`: `some c` = reuse sibling `c`, `none` = append. -/
def reconLoop (node : Node) : List Node → Except DefineErr (Option Node)
  | [] => .ok none
  | c :: rest =>
      if c.wildcard then
        if ¬ node.wildcard then .error .nameConflict
        else if c.name ≠ node.name then .error .nameConflict
        else .ok (some c)
      else if c.suffix ≠ node.suffix then reconLoop node rest
      else if (¬ node.wildcard ∧ c.regex.isNone ∧ node.regex.isNone)
            ∨ (c.regex.isSome ∧ node.regex.isSome ∧ regexSrc c.regex = regexSrc node.regex) then
        if c.name ≠ node.name then .error .nameConflict else .ok (some c)
      else reconLoop node rest

/-- Tail of `parseNode` for a parametric segment once `(name, suffix,
regex, wildcard)` are parsed: the `wordReg` name check, the
reconciliation loop, and append-and-stable-sort. -/
def attachParam (parent : Node) (segment nameF sfx : Str) (rsrc : Option Str)
    (wild : Bool) : Except DefineErr (Node × ChildLoc) :=
  if ¬ isWord nameF then .error .invalid
  else
    let node : Node := .mk nameF [] [] segment sfx false wild [] [] [] (rsrc.map mustCompile)
    match reconLoop node parent.varyChildren with
    | .error e => .error e
    | .ok (some c) => .ok (parent, .vary c.sig)
    | .ok none =>
        let vc0 := parent.varyChildren ++ [node]
        .ok (parent.setVaryChildren (if 1 < vc0.length then sortVary vc0 else vc0),
             .vary node.sig)

/-- The `segment[0] == ':'` branch of `parseNode` (`name0 = segment[1:]`).
A bare `":"` indexes out of range in Go (a runtime panic); that is
`.error .invalid` here. -/
def parseParam (parent : Node) (segment name0 : Str) : Except DefineErr (Node × ChildLoc) :=
  match name0.getLast? with
  | none => .error .invalid
  | some lastC =>
      if lastC = '*' then
        attachParam parent segment name0.dropLast [] none true
      else
        let sfxM := suffixFind name0
        let name1 := if sfxM ≠ [] then name0.take (name0.length - sfxM.length) else name0
        let nsfx := sfxM.drop 1
        if sfxM ≠ [] ∧ nsfx = [] then .error .invalid
        else if name1.getLastD ' ' = ')' then
          match idxOfChar '(' name1 with
          | some i =>
              if 0 < i then
                let rsrc := (name1.drop (i + 1)).dropLast
                if ¬ rsrc.isEmpty then attachParam parent segment (name1.take i) nsfx (some rsrc) false
                else .error .invalid
              else attachParam parent segment name1 nsfx none false
          | none => attachParam parent segment name1 nsfx none false
        else attachParam parent segment name1 nsfx none false

/-- The `_segment` of `parseNode`: the double-colon escape drops one
colon, and `ignoreCase` lower-cases the stored key. -/
def litKey (segment : Str) (ic : Bool) : Str :=
  if ic then lowerStr (if isDoubleColon segment then segment.drop 1 else segment)
  else (if isDoubleColon segment then segment.drop 1 else segment)

/-- `parseNode`.  Returns the parent (with the child found or created
in it) and the child's location. -/
def parseNode (parent : Node) (segment : Str) (ic : Bool) :
    Except DefineErr (Node × ChildLoc) :=
  let key := litKey segment ic
  match alGet parent.children key with
  | some _ => .ok (parent, .lit key)
  | none =>
      match segment with
      | [] => .ok (setLoc parent (.lit key) (Node.blank segment), .lit key)
      | c :: cs =>
          if isDoubleColon segment then
            .ok (setLoc parent (.lit key) (Node.blank segment), .lit key)
          else if c = ':' then
            parseParam parent segment cs
          else if c = '*' ∨ c = '(' ∨ c = ')' then
            .error .invalid
          else if segment.getLastD ' ' = '*' then
            .ok (setLoc parent (.lit key.dropLast) ((Node.blank segment).setWildcard true),
                 .lit key.dropLast)
          else
            .ok (setLoc parent (.lit key) (Node.blank segment), .lit key)

/-- `defineNode`.  Recurses over the segments; the endpoint marking of
the last segment also performs `Define`'s pattern recording (in Go the
same mutation, applied through the returned pointer).  Returns the
updated subtree and the location path of the endpoint. -/
def defineNode (parent : Node) (segs : List Str) (ic : Bool) (pat : Str) :
    Except DefineErr (Node × List ChildLoc) :=
  match segs with
  | [] => .error .internal
  | seg :: rest =>
      match parseNode parent seg ic with
      | .error e => .error e
      | .ok (parent1, loc) =>
          match getLoc parent1 loc with
          | none => .error .internal
          | some child =>
              if rest.isEmpty then
                .ok (setLoc parent1 loc (child.markEnd pat), [loc])
              else if child.wildcard then .error .afterWildcard
              else
                match defineNode child rest ic pat with
                | .error e => .error e
                | .ok (child2, lp) => .ok (setLoc parent1 loc child2, loc :: lp)

/-- `strings.TrimPrefix(pattern, "/")`. -/
def stripLeadSlash : Str → Str
  | '/' :: rest => rest
  | s => s

/-- The `?`-query strip of `Define` (`_pattern[:i]` at the first `?`). -/
def cutQuery : Str → Str
  | [] => []
  | c :: rest => if c = '?' then [] else c :: cutQuery rest

/-- `Trie.Define`. -/
def Trie.define (t : Trie) (pattern : Str) : Except DefineErr (Trie × List ChildLoc) :=
  if containsDD pattern then .error .multiSlash
  else
    match defineNode t.root (splitSlash (cutQuery (stripLeadSlash pattern))) t.ignoreCase pattern with
    | .error e => .error e
    | .ok (root1, lp) => .ok ({ t with root := root1 }, lp)

/-- Apply `Define` for a whole list of patterns (`none` as soon as one
of them panics): the reachable tries are the results of such runs. -/
def buildAll (t : Trie) : List Str → Option Trie
  | [] => some t
  | p :: ps =>
      match t.define p with
      | .ok (t1, _) => buildAll t1 ps
      | .error _ => none

/-! ## Method router (`mux/mux.go`) -/

/-- Handler lookup in the per-node method table (`handlers` of
`trie.go`; the `mux` package reads it through the node). -/
def alGetH : List (Str × Nat) → Str → Option Nat
  | [], _ => none
  | (k, v) :: rest, key => if k = key then some v else alGetH rest key

/-- `Node.Handle`: panics on double registration, appends the handler
and extends `allow` with `", " + method`. -/
def Node.handleMethod : Node → Str → Nat → Except Unit Node
  | .mk n a p sg sf e w vc ch hs r, method, h =>
      match alGetH hs method with
      | some _ => .error ()
      | none =>
          .ok (.mk n (if a = [] then method else a ++ ',' :: ' ' :: method)
            p sg sf e w vc ch (hs ++ [(method, h)]) r)

/-- Walk a location path down from a node. -/
def getPath (n : Node) : List ChildLoc → Option Node
  | [] => some n
  | loc :: rest =>
      match getLoc n loc with
      | some c => getPath c rest
      | none => none

/-- Write a node back at the end of a location path. -/
def setPath (n : Node) : List ChildLoc → Node → Node
  | [], v => v
  | loc :: rest, v =>
      match getLoc n loc with
      | some c => setLoc n loc (setPath c rest v)
      | none => n

/-- `Mux` of `mux/mux.go`: a trie and an optional fallback handler. -/
structure Mux where
  trie : Trie
  otherwise : Option Nat

inductive MuxErr : Type where
  | emptyMethod
  | dup
  | defineFail (e : DefineErr)
deriving DecidableEq

def Mux.new (ic fprF tsrF : Bool) : Mux := ⟨Trie.new ic fprF tsrF, none⟩

/-- `Mux.Handle`: rejects an empty method, defines the pattern, and
mounts the handler under the upper-cased method on the endpoint. -/
def Mux.handleOn (m : Mux) (method pattern : Str) (h : Nat) : Except MuxErr Mux :=
  if method = [] then .error .emptyMethod
  else
    match m.trie.define pattern with
    | .error e => .error (.defineFail e)
    | .ok (t1, lp) =>
        match getPath t1.root lp with
        | none => .error (.defineFail .internal)
        | some n =>
            match n.handleMethod (upperStr method) h with
            | .error _ => .error .dup
            | .ok n1 => .ok ⟨{ t1 with root := setPath t1.root lp n1 }, m.otherwise⟩

/-- What `Mux.ServeHTTP` writes: a handler invocation, a redirect, or a
synthesized response.  `http.Error` writes the message plus a trailing
newline; the `Allow` header is carried explicitly. -/
inductive ServeResult : Type where
  | invoke (handler : Nat) (params : List (Str × Str))
  | redirect (code : Nat) (location : Str)
  | response (status : Nat) (allow : Option Str) (body : Str)
deriving DecidableEq

def quoteStr (s : Str) : Str := Char.ofNat 34 :: (s ++ [Char.ofNat 34])

def newlineChar : Char := Char.ofNat 10

/-- `Mux.ServeHTTP` (`none` when `Match` would panic on the path). -/
def Mux.serveHTTP (m : Mux) (method path : Str) : Option ServeResult :=
  match m.trie.matchPath path with
  | none => none
  | some res =>
      match res.node with
      | none =>
          if res.tsr ≠ [] ∨ res.fpr ≠ [] then
            some (.redirect (if method = ("GET").data then 301 else 307)
              (if res.fpr ≠ [] then res.fpr else res.tsr))
          else
            match m.otherwise with
            | none =>
                some (.response 501 none
                  (quoteStr path ++ (" not implemented").data ++ [newlineChar]))
            | some h => some (.invoke h res.params)
      | some n =>
          match alGetH n.handlers method with
          | some h => some (.invoke h res.params)
          | none =>
              if method = ("OPTIONS").data then
                some (.response 204 (some n.allow) [])
              else
                match m.otherwise with
                | none =>
                    some (.response 405 (some n.allow)
                      (quoteStr method ++ (" not allowed in ").data ++ quoteStr path ++ [newlineChar]))
                | some h => some (.invoke h res.params)

/-! ## Concrete tries for the end-to-end scenarios -/

/-- Unwrap a `Define` chain for building concrete tries (falls back to
the input on error; every concrete chain below is proven `.ok`). -/
def defStep (t : Trie) (p : Str) : Trie :=
  match t.define p with
  | .ok (t1, _) => t1
  | .error _ => t

/-- Setup S1: defaults, `/:type` defined. -/
def trieS1 : Trie := defStep newDefault ("/:type").data

/-- Setup S5: defaults, `/abc/efg` and `/abc/xyz/` defined. -/
def trieS5 : Trie := defStep (defStep newDefault ("/abc/efg").data) ("/abc/xyz/").data

/-- The five attachable parametric siblings of priority property 9,
inserted in reverse priority order so the stable sort has to reorder
them: `/:x`, `/:x(re1)`, `/:x+sfx`, `/:x(re1)+sfx`, `/:x*`. -/
def trieOrder : Trie :=
  defStep (defStep (defStep (defStep (defStep newDefault
    ("/:x").data) ("/:x(re1)").data) ("/:x+sfx").data) ("/:x(re1)+sfx").data) ("/:x*").data

/-- Suffix parameter `/:b+D` with `ignore_case` on (for C4). -/
def trieIcOn : Trie := defStep (Trie.new true true true) ("/:b+D").data

/-- Suffix parameter `/:b+D` with `ignore_case` off (for C4). -/
def trieIcOff : Trie := defStep (Trie.new false true true) ("/:b+D").data

/-- Setup S7: method router with defaults, `GET /abc` registered with
handler token `7`. -/
def muxS7 : Mux :=
  match (Mux.new true true true).handleOn ("GET").data ("/abc").data 7 with
  | .ok m => m
  | .error _ => Mux.new true true true

/-- Projection used to state match results without comparing whole
nodes: endpoint pattern, params, FPR, TSR. -/
def viewM (m : Matched) : Option Str × List (Str × Str) × Str × Str :=
  (m.node.map Node.pattern, m.params, m.fpr, m.tsr)

/-- Match priority class of a parametric node: suffix counts 2, regex
counts 1 (higher classes are tried first). -/
def prioKey (n : Node) : Nat :=
  (if n.suffix = [] then 0 else 2) + (if n.regex.isSome then 1 else 0)

/-- The nodes of priority class `k`, in stored order. -/
def prioFilter (k : Nat) (l : List Node) : List Node :=
  l.filter (fun c => prioKey c = k)

/-- Every node's `varyChildren` is weakly decreasing in priority class,
recursively. -/
inductive VSorted : Node → Prop where
  | intro (n : Node)
      (hsort : n.varyChildren.Pairwise (fun a b => prioKey b ≤ prioKey a))
      (hch : ∀ kv ∈ n.children, VSorted kv.2)
      (hvc : ∀ c ∈ n.varyChildren, VSorted c) : VSorted n

/-- Scalar (non-container) fields of two nodes agree. -/
def sameScalars (a b : Node) : Prop :=
  a.name = b.name ∧ a.allow = b.allow ∧ a.pattern = b.pattern ∧
  a.segment = b.segment ∧ a.suffix = b.suffix ∧ a.endpoint = b.endpoint ∧
  a.wildcard = b.wildcard ∧ a.handlers = b.handlers ∧ a.regex = b.regex

/-- The five sibling patterns of priority property 9, in insertion
order bare, regex, suffix, suffix+regex, wildcard (the wildcard must
come last to be attachable). -/
def pats5 : List Str :=
  [("/:x").data, ("/:x(re1)").data, ("/:x+sfx").data, ("/:x(re1)+sfx").data, ("/:x*").data]

/-- Invariant I4: a wildcard node has no children (literal or
parametric), recursively. -/
inductive WildFree : Node → Prop where
  | intro (n : Node)
      (hw : n.wildcard = true → n.children = [] ∧ n.varyChildren = [])
      (hch : ∀ kv ∈ n.children, WildFree kv.2)
      (hvc : ∀ c ∈ n.varyChildren, WildFree c) : WildFree n

/-- At most one outcome field of a `Matched` is set. -/
def atMostOne (m : Matched) : Prop :=
  (m.node.isSome = true → m.fpr = [] ∧ m.tsr = []) ∧ ¬(m.fpr ≠ [] ∧ m.tsr ≠ [])

instance : Inhabited Matched := ⟨⟨none, [], [], []⟩⟩

/-- The possible provenance of one `Params` entry with respect to the
segments of the (already slash-normalized) path: some accepting step
`matchNode p (folded seg i) = some c` bound `c.name` to (a) the whole
tail `path[start:end]` for a wildcard, (b) the whole unfolded segment
for a plain parameter, or (c) the unfolded segment with the suffix
*length* removed from the end for a suffix parameter. -/
def capShape (segs : List Str) (ic : Bool) (e : Str × Str) : Prop :=
  ∃ (i : Nat) (hi : i < segs.length) (p c : Node),
    matchNode p (if ic then lowerStr (segs.get ⟨i, hi⟩) else segs.get ⟨i, hi⟩) = some c ∧
    e.1 = c.name ∧
    ((c.wildcard = true ∧ e.2 = joinSegs (segs.drop i)) ∨
     (c.wildcard = false ∧ c.suffix = [] ∧ e.2 = segs.get ⟨i, hi⟩) ∨
     (c.wildcard = false ∧ c.suffix ≠ [] ∧
       e.2 = (segs.get ⟨i, hi⟩).take ((segs.get ⟨i, hi⟩).length - c.suffix.length)))

/-- Two parametric nodes have the same defining shape: equal suffix and
equal regex source (including both absent). -/
def shapeEqB (c n : Node) : Bool :=
  decide (c.suffix = n.suffix ∧ regexSrc c.regex = regexSrc n.regex)

def lpOf (r : Except DefineErr (Trie × List ChildLoc)) : Option (List ChildLoc) :=
  match r with
  | .ok (_, lp) => some lp
  | .error _ => none

def errOf (r : Except DefineErr (Trie × List ChildLoc)) : Option DefineErr :=
  match r with
  | .ok _ => none
  | .error e => some e

/-- The non-wildcard match condition of the reconciliation loop. -/
def reconMatches (c node : Node) : Prop :=
  c.suffix = node.suffix ∧
  ((¬ node.wildcard ∧ c.regex.isNone ∧ node.regex.isNone)
    ∨ (c.regex.isSome ∧ node.regex.isSome ∧ regexSrc c.regex = regexSrc node.regex))

/-! ## Theorems -/

/-- C1: on a default-option trie with exactly `/abc/efg` and `/abc/xyz/`
defined (both definitions succeed), `Match("/abc/efg/")` yields no node
and `TSR="/abc/efg"`; `Match("/abc//efg")` yields no node and
`FPR="/abc/efg"`; `Match("/abc//efg/")` yields no node, `FPR="/abc/efg"`
and empty `TSR` (FPR wins when the path is both dirty and
trailing-slash-mismatched); `Match("/abc/xyz")` yields no node and
`TSR="/abc/xyz/"`; `Match("/abc//xyz")` yields no node and
`FPR="/abc/xyz/"`. -/
theorem c1_redirect_interplay :
    (newDefault.define ("/abc/efg").data).isOk = true ∧
    ((defStep newDefault ("/abc/efg").data).define ("/abc/xyz/").data).isOk = true ∧
    (trieS5.matchPath ("/abc/efg/").data).map viewM =
      some (none, [], [], ("/abc/efg").data) ∧
    (trieS5.matchPath ("/abc//efg").data).map viewM =
      some (none, [], ("/abc/efg").data, []) ∧
    (trieS5.matchPath ("/abc//efg/").data).map viewM =
      some (none, [], ("/abc/efg").data, []) ∧
    (trieS5.matchPath ("/abc/xyz").data).map viewM =
      some (none, [], [], ("/abc/xyz/").data) ∧
    (trieS5.matchPath ("/abc//xyz").data).map viewM =
      some (none, [], ("/abc/xyz/").data, []) := by
  exact ⟨rfl, rfl, rfl, rfl, rfl, rfl, rfl⟩

/-- C3, counterexample: with `/:type` defined on a default trie, the
code *does* match `"/"` — the bare parameter also accepts the empty root
segment, so a node is returned (with `type` bound to the empty string),
refuting "Match(\"/\") returns no match". -/
theorem c3_empty_segment_matches :
    (trieS1.matchPath ("/").data).map (fun m => m.node.isSome) = some true := by
  exact rfl

/-- C3, amended: with `/:type` defined on a default trie,
`Match("/users")` returns the endpoint of `/:type` with
`Params = {type: "users"}`; and `Match("/")` returns that same endpoint
with `Params = {type: ""}` — the bare parameter `:name` also captures
the empty root segment (it does not require non-empty text). -/
theorem c3_param_match :
    (newDefault.define ("/:type").data).isOk = true ∧
    (trieS1.matchPath ("/users").data).map viewM =
      some (some ("/:type").data, [(("type").data, ("users").data)], [], []) ∧
    (trieS1.matchPath ("/").data).map viewM =
      some (some ("/:type").data, [(("type").data, [])], [], []) := by
  exact ⟨rfl, rfl, rfl⟩

/-- C9: on a default method router with exactly `GET /abc` registered,
`PUT /abc` yields `405` with `Allow: GET` and `http.Error` body
`"PUT" not allowed in "/abc"` (plus the trailing newline `http.Error`
appends); `OPTIONS /abc` yields `204` with `Allow: GET` and empty body;
`GET /` yields `501` with body `"/" not implemented`. -/
theorem c9_method_router :
    ((Mux.new true true true).handleOn ("GET").data ("/abc").data 7).isOk = true ∧
    muxS7.serveHTTP ("PUT").data ("/abc").data =
      some (.response 405 (some ("GET").data)
        (quoteStr ("PUT").data ++ (" not allowed in ").data ++ quoteStr ("/abc").data ++ [newlineChar])) ∧
    muxS7.serveHTTP ("OPTIONS").data ("/abc").data =
      some (.response 204 (some ("GET").data) []) ∧
    muxS7.serveHTTP ("GET").data ("/").data =
      some (.response 501 none (quoteStr ("/").data ++ (" not implemented").data ++ [newlineChar])) := by
  exact ⟨rfl, rfl, rfl, rfl⟩

/-! ## Ordering of `varyChildren` -/


theorem goLess_eq_key (a b : Node) : goLess a b = decide (prioKey b < prioKey a) := by
  by_cases hs1 : a.suffix = [] <;> by_cases hs2 : b.suffix = [] <;>
    cases hr1 : a.regex <;> cases hr2 : b.regex <;>
      simp [goLess, prioKey, hs1, hs2, hr1, hr2]

theorem insOrd_perm (x : Node) (l : List Node) : (insOrd x l).Perm (x :: l) := by
  induction l with
  | nil => simp [insOrd]
  | cons y ys ih =>
      simp only [insOrd]
      by_cases h : goLess x y = true
      · simp [h]
      · simp only [h]
        exact List.Perm.trans (List.Perm.cons y ih) (List.Perm.swap x y ys)

theorem sortVary_perm (l : List Node) : (sortVary l).Perm l := by
  suffices h : ∀ (l : List Node) (acc : List Node),
      (l.foldl (fun acc x => insOrd x acc) acc).Perm (acc ++ l) by
    simpa using h l []
  intro l
  induction l with
  | nil => simp
  | cons x xs ih =>
      intro acc
      simp only [List.foldl_cons]
      refine (ih (insOrd x acc)).trans ?_
      refine List.Perm.trans (List.Perm.append_right xs (insOrd_perm x acc)) ?_
      have : (x :: acc).Perm (acc ++ [x]) := by
        simpa using (@List.perm_append_comm _ [x] acc)
      simpa using List.Perm.append_right xs this

theorem mem_sortVary {x : Node} {l : List Node} : x ∈ sortVary l ↔ x ∈ l :=
  (sortVary_perm l).mem_iff

/-- Inserting behind every element of greater-or-equal class and in
front of a strictly smaller-class tail. -/
theorem insOrd_append (x : Node) (P S : List Node)
    (hP : ∀ y ∈ P, prioKey x ≤ prioKey y)
    (hS : ∀ y ∈ S, prioKey y < prioKey x) :
    insOrd x (P ++ S) = P ++ x :: S := by
  induction P with
  | nil =>
      cases S with
      | nil => simp [insOrd]
      | cons s ss =>
          have : goLess x s = true := by
            rw [goLess_eq_key]
            exact decide_eq_true (hS s (by simp))
          simp [insOrd, this]
  | cons p ps ih =>
      have : goLess x p = false := by
        rw [goLess_eq_key]
        exact decide_eq_false (Nat.not_lt.mpr (hP p (by simp)))
      simp only [List.cons_append, insOrd, this, Bool.false_eq_true, if_false, List.cons.injEq,
        true_and]
      exact ih (fun y hy => hP y (by simp [hy]))


theorem mem_prioFilter_key {k : Nat} {l : List Node} {y : Node}
    (h : y ∈ prioFilter k l) : prioKey y = k := by
  have := (List.mem_filter.mp h).2
  exact of_decide_eq_true this

/-- `sortVary` is exactly the stable priority ordering: the class-3
nodes (suffix and regex) in insertion order, then class 2 (suffix only),
then class 1 (regex only), then class 0 (neither — bare parameters and
wildcards). -/
theorem sortVary_classes (l : List Node) :
    sortVary l =
      prioFilter 3 l ++ prioFilter 2 l ++ prioFilter 1 l ++ prioFilter 0 l := by
  induction l using List.reverseRecOn with
  | nil => simp [sortVary, prioFilter]
  | append_singleton l x ih =>
      have hstep : sortVary (l ++ [x]) = insOrd x (sortVary l) := by
        simp [sortVary, List.foldl_append]
      have hf : ∀ k, prioFilter k (l ++ [x]) =
          prioFilter k l ++ (if prioKey x = k then [x] else []) := by
        intro k
        simp only [prioFilter, List.filter_append]
        congr 1
        by_cases h : prioKey x = k <;> simp [h]
      have hk : prioKey x = 0 ∨ prioKey x = 1 ∨ prioKey x = 2 ∨ prioKey x = 3 := by
        unfold prioKey
        split <;> split <;> omega
      rw [hstep, ih]
      rcases hk with hx | hx | hx | hx
      · have h0 := insOrd_append x
          (prioFilter 3 l ++ prioFilter 2 l ++ prioFilter 1 l ++ prioFilter 0 l) []
          (by intro y hy
              simp only [List.mem_append] at hy
              rcases hy with ((hy | hy) | hy) | hy <;>
                (rw [mem_prioFilter_key hy, hx] <;> omega))
          (by intro y hy; simp at hy)
        simp only [List.append_assoc] at h0 ⊢
        rw [List.append_nil] at h0
        rw [h0]
        simp [hf, hx, List.append_assoc]
      · have h1 := insOrd_append x
          (prioFilter 3 l ++ prioFilter 2 l ++ prioFilter 1 l) (prioFilter 0 l)
          (by intro y hy
              simp only [List.mem_append] at hy
              rcases hy with (hy | hy) | hy <;>
                (rw [mem_prioFilter_key hy, hx] <;> omega))
          (by intro y hy; rw [mem_prioFilter_key hy, hx] <;> omega)
        simp only [List.append_assoc] at h1 ⊢
        rw [h1]
        simp [hf, hx, List.append_assoc]
      · have h2 := insOrd_append x
          (prioFilter 3 l ++ prioFilter 2 l) (prioFilter 1 l ++ prioFilter 0 l)
          (by intro y hy
              simp only [List.mem_append] at hy
              rcases hy with hy | hy <;>
                (rw [mem_prioFilter_key hy, hx] <;> omega))
          (by intro y hy
              simp only [List.mem_append] at hy
              rcases hy with hy | hy <;>
                (rw [mem_prioFilter_key hy, hx] <;> omega))
        simp only [List.append_assoc] at h2 ⊢
        rw [h2]
        simp [hf, hx, List.append_assoc]
      · have h3 := insOrd_append x
          (prioFilter 3 l) (prioFilter 2 l ++ prioFilter 1 l ++ prioFilter 0 l)
          (by intro y hy; rw [mem_prioFilter_key hy, hx] <;> omega)
          (by intro y hy
              simp only [List.mem_append] at hy
              rcases hy with (hy | hy) | hy <;>
                (rw [mem_prioFilter_key hy, hx] <;> omega))
        simp only [List.append_assoc] at h3 ⊢
        rw [h3]
        simp [hf, hx, List.append_assoc]

/-! ## Accessor lemmas for the node updaters -/

@[simp] theorem Node.name_setChildren (n : Node) (ch : List (Str × Node)) :
    (n.setChildren ch).name = n.name := by cases n <;> rfl

@[simp] theorem Node.allow_setChildren (n : Node) (ch : List (Str × Node)) :
    (n.setChildren ch).allow = n.allow := by cases n <;> rfl

@[simp] theorem Node.pattern_setChildren (n : Node) (ch : List (Str × Node)) :
    (n.setChildren ch).pattern = n.pattern := by cases n <;> rfl

@[simp] theorem Node.segment_setChildren (n : Node) (ch : List (Str × Node)) :
    (n.setChildren ch).segment = n.segment := by cases n <;> rfl

@[simp] theorem Node.suffix_setChildren (n : Node) (ch : List (Str × Node)) :
    (n.setChildren ch).suffix = n.suffix := by cases n <;> rfl

@[simp] theorem Node.endpoint_setChildren (n : Node) (ch : List (Str × Node)) :
    (n.setChildren ch).endpoint = n.endpoint := by cases n <;> rfl

@[simp] theorem Node.wildcard_setChildren (n : Node) (ch : List (Str × Node)) :
    (n.setChildren ch).wildcard = n.wildcard := by cases n <;> rfl

@[simp] theorem Node.varyChildren_setChildren (n : Node) (ch : List (Str × Node)) :
    (n.setChildren ch).varyChildren = n.varyChildren := by cases n <;> rfl

@[simp] theorem Node.children_setChildren (n : Node) (ch : List (Str × Node)) :
    (n.setChildren ch).children = ch := by cases n <;> rfl

@[simp] theorem Node.handlers_setChildren (n : Node) (ch : List (Str × Node)) :
    (n.setChildren ch).handlers = n.handlers := by cases n <;> rfl

@[simp] theorem Node.regex_setChildren (n : Node) (ch : List (Str × Node)) :
    (n.setChildren ch).regex = n.regex := by cases n <;> rfl

@[simp] theorem Node.name_setVaryChildren (n : Node) (vc : List Node) :
    (n.setVaryChildren vc).name = n.name := by cases n <;> rfl

@[simp] theorem Node.allow_setVaryChildren (n : Node) (vc : List Node) :
    (n.setVaryChildren vc).allow = n.allow := by cases n <;> rfl

@[simp] theorem Node.pattern_setVaryChildren (n : Node) (vc : List Node) :
    (n.setVaryChildren vc).pattern = n.pattern := by cases n <;> rfl

@[simp] theorem Node.segment_setVaryChildren (n : Node) (vc : List Node) :
    (n.setVaryChildren vc).segment = n.segment := by cases n <;> rfl

@[simp] theorem Node.suffix_setVaryChildren (n : Node) (vc : List Node) :
    (n.setVaryChildren vc).suffix = n.suffix := by cases n <;> rfl

@[simp] theorem Node.endpoint_setVaryChildren (n : Node) (vc : List Node) :
    (n.setVaryChildren vc).endpoint = n.endpoint := by cases n <;> rfl

@[simp] theorem Node.wildcard_setVaryChildren (n : Node) (vc : List Node) :
    (n.setVaryChildren vc).wildcard = n.wildcard := by cases n <;> rfl

@[simp] theorem Node.varyChildren_setVaryChildren (n : Node) (vc : List Node) :
    (n.setVaryChildren vc).varyChildren = vc := by cases n <;> rfl

@[simp] theorem Node.children_setVaryChildren (n : Node) (vc : List Node) :
    (n.setVaryChildren vc).children = n.children := by cases n <;> rfl

@[simp] theorem Node.handlers_setVaryChildren (n : Node) (vc : List Node) :
    (n.setVaryChildren vc).handlers = n.handlers := by cases n <;> rfl

@[simp] theorem Node.regex_setVaryChildren (n : Node) (vc : List Node) :
    (n.setVaryChildren vc).regex = n.regex := by cases n <;> rfl

@[simp] theorem Node.name_setWildcard (n : Node) (w : Bool) :
    (n.setWildcard w).name = n.name := by cases n <;> rfl

@[simp] theorem Node.allow_setWildcard (n : Node) (w : Bool) :
    (n.setWildcard w).allow = n.allow := by cases n <;> rfl

@[simp] theorem Node.pattern_setWildcard (n : Node) (w : Bool) :
    (n.setWildcard w).pattern = n.pattern := by cases n <;> rfl

@[simp] theorem Node.segment_setWildcard (n : Node) (w : Bool) :
    (n.setWildcard w).segment = n.segment := by cases n <;> rfl

@[simp] theorem Node.suffix_setWildcard (n : Node) (w : Bool) :
    (n.setWildcard w).suffix = n.suffix := by cases n <;> rfl

@[simp] theorem Node.endpoint_setWildcard (n : Node) (w : Bool) :
    (n.setWildcard w).endpoint = n.endpoint := by cases n <;> rfl

@[simp] theorem Node.wildcard_setWildcard (n : Node) (w : Bool) :
    (n.setWildcard w).wildcard = w := by cases n <;> rfl

@[simp] theorem Node.varyChildren_setWildcard (n : Node) (w : Bool) :
    (n.setWildcard w).varyChildren = n.varyChildren := by cases n <;> rfl

@[simp] theorem Node.children_setWildcard (n : Node) (w : Bool) :
    (n.setWildcard w).children = n.children := by cases n <;> rfl

@[simp] theorem Node.handlers_setWildcard (n : Node) (w : Bool) :
    (n.setWildcard w).handlers = n.handlers := by cases n <;> rfl

@[simp] theorem Node.regex_setWildcard (n : Node) (w : Bool) :
    (n.setWildcard w).regex = n.regex := by cases n <;> rfl

@[simp] theorem Node.name_markEnd (n : Node) (pat : Str) :
    (n.markEnd pat).name = n.name := by cases n <;> rfl

@[simp] theorem Node.allow_markEnd (n : Node) (pat : Str) :
    (n.markEnd pat).allow = n.allow := by cases n <;> rfl

@[simp] theorem Node.pattern_markEnd (n : Node) (pat : Str) :
    (n.markEnd pat).pattern = (if n.pattern = [] then pat else n.pattern) := by cases n <;> rfl

@[simp] theorem Node.segment_markEnd (n : Node) (pat : Str) :
    (n.markEnd pat).segment = n.segment := by cases n <;> rfl

@[simp] theorem Node.suffix_markEnd (n : Node) (pat : Str) :
    (n.markEnd pat).suffix = n.suffix := by cases n <;> rfl

@[simp] theorem Node.endpoint_markEnd (n : Node) (pat : Str) :
    (n.markEnd pat).endpoint = true := by cases n <;> rfl

@[simp] theorem Node.wildcard_markEnd (n : Node) (pat : Str) :
    (n.markEnd pat).wildcard = n.wildcard := by cases n <;> rfl

@[simp] theorem Node.varyChildren_markEnd (n : Node) (pat : Str) :
    (n.markEnd pat).varyChildren = n.varyChildren := by cases n <;> rfl

@[simp] theorem Node.children_markEnd (n : Node) (pat : Str) :
    (n.markEnd pat).children = n.children := by cases n <;> rfl

@[simp] theorem Node.handlers_markEnd (n : Node) (pat : Str) :
    (n.markEnd pat).handlers = n.handlers := by cases n <;> rfl

@[simp] theorem Node.regex_markEnd (n : Node) (pat : Str) :
    (n.markEnd pat).regex = n.regex := by cases n <;> rfl

@[simp] theorem Node.name_blank (seg : Str) :
    (Node.blank seg).name = [] := rfl

@[simp] theorem Node.allow_blank (seg : Str) :
    (Node.blank seg).allow = [] := rfl

@[simp] theorem Node.pattern_blank (seg : Str) :
    (Node.blank seg).pattern = [] := rfl

@[simp] theorem Node.segment_blank (seg : Str) :
    (Node.blank seg).segment = seg := rfl

@[simp] theorem Node.suffix_blank (seg : Str) :
    (Node.blank seg).suffix = [] := rfl

@[simp] theorem Node.endpoint_blank (seg : Str) :
    (Node.blank seg).endpoint = false := rfl

@[simp] theorem Node.wildcard_blank (seg : Str) :
    (Node.blank seg).wildcard = false := rfl

@[simp] theorem Node.varyChildren_blank (seg : Str) :
    (Node.blank seg).varyChildren = [] := rfl

@[simp] theorem Node.children_blank (seg : Str) :
    (Node.blank seg).children = [] := rfl

@[simp] theorem Node.handlers_blank (seg : Str) :
    (Node.blank seg).handlers = [] := rfl

@[simp] theorem Node.regex_blank (seg : Str) :
    (Node.blank seg).regex = none := rfl

theorem pairwise_prioFilter (k : Nat) (l : List Node) :
    (prioFilter k l).Pairwise (fun a b => prioKey b ≤ prioKey a) := by
  apply List.pairwise_of_forall_mem_list
  intro a ha b hb
  rw [mem_prioFilter_key ha, mem_prioFilter_key hb]

/-- The sorted list is weakly decreasing in priority class. -/
theorem sortVary_sorted (l : List Node) :
    (sortVary l).Pairwise (fun a b => prioKey b ≤ prioKey a) := by
  rw [sortVary_classes]
  refine List.pairwise_append.mpr ⟨List.pairwise_append.mpr ⟨List.pairwise_append.mpr
    ⟨pairwise_prioFilter 3 l, pairwise_prioFilter 2 l, ?_⟩, pairwise_prioFilter 1 l, ?_⟩,
    pairwise_prioFilter 0 l, ?_⟩
  · intro a ha b hb
    rw [mem_prioFilter_key ha, mem_prioFilter_key hb] <;> omega
  · intro a ha b hb
    simp only [List.mem_append] at ha
    rcases ha with ha | ha <;> (rw [mem_prioFilter_key ha, mem_prioFilter_key hb] <;> omega)
  · intro a ha b hb
    simp only [List.mem_append] at ha
    rcases ha with (ha | ha) | ha <;>
      (rw [mem_prioFilter_key ha, mem_prioFilter_key hb] <;> omega)

/-! ## Membership lemmas for the updated containers -/

theorem mem_alPut {l : List (Str × Node)} {k : Str} {v : Node} {kv : Str × Node}
    (h : kv ∈ alPut l k v) : kv = (k, v) ∨ kv ∈ l := by
  induction l with
  | nil => simpa [alPut] using h
  | cons hd tl ih =>
      obtain ⟨k0, v0⟩ := hd
      simp only [alPut] at h
      by_cases hk : k0 = k
      · simp only [hk, if_true] at h
        rcases List.mem_cons.mp h with h | h
        · exact Or.inl h
        · exact Or.inr (List.mem_cons.mpr (Or.inr h))
      · simp only [hk, if_false] at h
        rcases List.mem_cons.mp h with h | h
        · exact Or.inr (List.mem_cons.mpr (Or.inl h))
        · rcases ih h with h | h
          · exact Or.inl h
          · exact Or.inr (List.mem_cons.mpr (Or.inr h))

theorem mem_replaceVary {l : List Node} {sg : VarySig} {v x : Node}
    (h : x ∈ replaceVary sg v l) : x = v ∨ x ∈ l := by
  induction l with
  | nil => simp [replaceVary] at h
  | cons c cs ih =>
      simp only [replaceVary] at h
      by_cases hc : c.sig = sg
      · simp only [hc, if_true] at h
        rcases List.mem_cons.mp h with h | h
        · exact Or.inl h
        · exact Or.inr (List.mem_cons.mpr (Or.inr h))
      · simp only [hc, if_false] at h
        rcases List.mem_cons.mp h with h | h
        · exact Or.inr (List.mem_cons.mpr (Or.inl h))
        · rcases ih h with h | h
          · exact Or.inl h
          · exact Or.inr (List.mem_cons.mpr (Or.inr h))

theorem mem_insertP {l : List (Str × Str)} {k v : Str} {kv : Str × Str}
    (h : kv ∈ insertP l k v) : kv = (k, v) ∨ kv ∈ l := by
  induction l with
  | nil => simpa [insertP] using h
  | cons hd tl ih =>
      obtain ⟨k0, v0⟩ := hd
      simp only [insertP] at h
      by_cases hk : k0 = k
      · simp only [hk, if_true] at h
        rcases List.mem_cons.mp h with h | h
        · exact Or.inl h
        · exact Or.inr (List.mem_cons.mpr (Or.inr h))
      · simp only [hk, if_false] at h
        rcases List.mem_cons.mp h with h | h
        · exact Or.inr (List.mem_cons.mpr (Or.inl h))
        · rcases ih h with h | h
          · exact Or.inl h
          · exact Or.inr (List.mem_cons.mpr (Or.inr h))

/-- `matchNode`'s vary loop accepts the *first* candidate that passes
the suffix and regex tests, in stored order. -/
theorem varyLoop_eq_findFirst (seg : Str) (l : List Node) :
    varyLoop seg l = l.find? (fun c => varyAccepts c seg) := by
  induction l with
  | nil => rfl
  | cons c cs ih =>
      simp only [varyLoop]
      by_cases hacc : varyAccepts c seg = true
      · simp [List.find?_cons, hacc]
      · simp [List.find?_cons, hacc, ih]

/-! ## The sortedness invariant of `varyChildren` (C2) -/


theorem VSorted.sorted {n : Node} (h : VSorted n) :
    n.varyChildren.Pairwise (fun a b => prioKey b ≤ prioKey a) := by
  cases h with
  | intro n hs hc hv => exact hs

theorem VSorted.onChildren {n : Node} (h : VSorted n) :
    ∀ kv ∈ n.children, VSorted kv.2 := by
  cases h with
  | intro n hs hc hv => exact hc

theorem VSorted.onVary {n : Node} (h : VSorted n) :
    ∀ c ∈ n.varyChildren, VSorted c := by
  cases h with
  | intro n hs hc hv => exact hv

theorem vsorted_of_leaf {n : Node} (h1 : n.children = []) (h2 : n.varyChildren = []) :
    VSorted n := by
  refine VSorted.intro n ?_ ?_ ?_ <;> simp [h1, h2]

theorem vsorted_markEnd {n : Node} (h : VSorted n) (pat : Str) :
    VSorted (n.markEnd pat) := by
  refine VSorted.intro _ ?_ ?_ ?_
  · rw [Node.varyChildren_markEnd]
    exact h.sorted
  · rw [Node.children_markEnd]
    exact h.onChildren
  · rw [Node.varyChildren_markEnd]
    exact h.onVary

theorem alGet_mem {l : List (Str × Node)} {k : Str} {v : Node}
    (h : alGet l k = some v) : (k, v) ∈ l := by
  induction l with
  | nil => simp [alGet] at h
  | cons hd tl ih =>
      obtain ⟨k0, v0⟩ := hd
      simp only [alGet] at h
      by_cases hk : k0 = k
      · rw [if_pos hk] at h
        cases h
        simp [hk]
      · rw [if_neg hk] at h
        exact List.mem_cons.mpr (Or.inr (ih h))

theorem alGet_alPut_self (l : List (Str × Node)) (k : Str) (v : Node) :
    alGet (alPut l k v) k = some v := by
  induction l with
  | nil => simp [alPut, alGet]
  | cons hd tl ih =>
      obtain ⟨k0, v0⟩ := hd
      simp only [alPut]
      by_cases hk : k0 = k
      · simp [hk, alGet]
      · simp [hk, alGet, ih]

theorem findVary_mem {l : List Node} {sg : VarySig} {v : Node}
    (h : findVary sg l = some v) : v ∈ l := by
  induction l with
  | nil => simp [findVary] at h
  | cons c cs ih =>
      simp only [findVary] at h
      by_cases hc : c.sig = sg
      · rw [if_pos hc] at h
        cases h
        simp
      · rw [if_neg hc] at h
        exact List.mem_cons.mpr (Or.inr (ih h))

theorem findVary_sig {l : List Node} {sg : VarySig} {v : Node}
    (h : findVary sg l = some v) : v.sig = sg := by
  induction l with
  | nil => simp [findVary] at h
  | cons c cs ih =>
      simp only [findVary] at h
      by_cases hc : c.sig = sg
      · rw [if_pos hc] at h
        cases h
        exact hc
      · rw [if_neg hc] at h
        exact ih h

theorem prioKey_eq_of_sig {a b : Node} (h : a.sig = b.sig) : prioKey a = prioKey b := by
  have h1 : a.suffix = b.suffix := congrArg Prod.fst h
  have h2 : regexSrc a.regex = regexSrc b.regex := congrArg (fun p => p.2.1) h
  have hsome : a.regex.isSome = b.regex.isSome := by
    have := congrArg Option.isSome h2
    simpa [regexSrc] using this
  unfold prioKey
  rw [h1, hsome]

theorem mem_replaceVary_strong {l : List Node} {sg : VarySig} {v x : Node}
    (h : x ∈ replaceVary sg v l) :
    (x = v ∧ ∃ c ∈ l, c.sig = sg) ∨ x ∈ l := by
  induction l with
  | nil => simp [replaceVary] at h
  | cons c cs ih =>
      simp only [replaceVary] at h
      by_cases hc : c.sig = sg
      · rw [if_pos hc] at h
        rcases List.mem_cons.mp h with h | h
        · exact Or.inl ⟨h, c, by simp, hc⟩
        · exact Or.inr (List.mem_cons.mpr (Or.inr h))
      · rw [if_neg hc] at h
        rcases List.mem_cons.mp h with h | h
        · exact Or.inr (List.mem_cons.mpr (Or.inl h))
        · rcases ih h with ⟨hv, c', hc', hsg⟩ | h
          · exact Or.inl ⟨hv, c', List.mem_cons.mpr (Or.inr hc'), hsg⟩
          · exact Or.inr (List.mem_cons.mpr (Or.inr h))

/-- Replacing (the first) signature match by a node of the same
signature keeps the priority ordering. -/
theorem pairwise_replaceVary {l : List Node} {sg : VarySig} {v : Node}
    (hl : l.Pairwise (fun a b => prioKey b ≤ prioKey a))
    (hsig : v.sig = sg) :
    (replaceVary sg v l).Pairwise (fun a b => prioKey b ≤ prioKey a) := by
  induction l with
  | nil => simp [replaceVary]
  | cons c cs ih =>
      have hhead := List.pairwise_cons.mp hl
      simp only [replaceVary]
      by_cases hc : c.sig = sg
      · rw [if_pos hc]
        refine List.pairwise_cons.mpr ⟨?_, hhead.2⟩
        intro x hx
        have : prioKey v = prioKey c := prioKey_eq_of_sig (by rw [hsig, hc])
        rw [this]
        exact hhead.1 x hx
      · rw [if_neg hc]
        refine List.pairwise_cons.mpr ⟨?_, ih hhead.2⟩
        intro x hx
        rcases mem_replaceVary_strong hx with ⟨hv, c', hc', hsg'⟩ | hx
        · have : prioKey x = prioKey c' := by
            rw [hv]
            exact prioKey_eq_of_sig (by rw [hsig, hsg'])
          rw [this]
          exact hhead.1 c' hc'
        · exact hhead.1 x hx

theorem vsorted_setLoc_lit {parent v : Node} {key : Str}
    (hp : VSorted parent) (hv : VSorted v) :
    VSorted (setLoc parent (.lit key) v) := by
  refine VSorted.intro _ ?_ ?_ ?_
  · simp only [setLoc, Node.varyChildren_setChildren]
    exact hp.sorted
  · simp only [setLoc, Node.children_setChildren]
    intro kv hkv
    rcases mem_alPut hkv with h | h
    · rw [h]
      exact hv
    · exact hp.onChildren kv h
  · simp only [setLoc, Node.varyChildren_setChildren]
    exact hp.onVary

theorem vsorted_setLoc_vary {parent v : Node} {sg : VarySig}
    (hp : VSorted parent) (hv : VSorted v) (hsig : v.sig = sg) :
    VSorted (setLoc parent (.vary sg) v) := by
  refine VSorted.intro _ ?_ ?_ ?_
  · simp only [setLoc, Node.varyChildren_setVaryChildren]
    exact pairwise_replaceVary hp.sorted hsig
  · simp only [setLoc, Node.children_setVaryChildren]
    exact hp.onChildren
  · simp only [setLoc, Node.varyChildren_setVaryChildren]
    intro c hc
    rcases mem_replaceVary_strong hc with ⟨h, -⟩ | h
    · rw [h]
      exact hv
    · exact hp.onVary c h

theorem vsorted_getLoc {parent v : Node} {loc : ChildLoc}
    (hp : VSorted parent) (h : getLoc parent loc = some v) : VSorted v := by
  cases loc with
  | lit key => exact hp.onChildren (key, v) (alGet_mem h)
  | vary sg => exact hp.onVary v (findVary_mem h)

/-- `parseNode` keeps the trie sorted: the only `varyChildren` update is
append-and-`sort.SliceStable`. -/
theorem parseNode_vsorted {parent p1 : Node} {seg : Str} {ic : Bool} {loc : ChildLoc}
    (hp : VSorted parent) (h : parseNode parent seg ic = .ok (p1, loc)) :
    VSorted p1 := by
  unfold parseNode at h
  dsimp only at h
  set key := litKey seg ic with hkey
  cases hget : alGet parent.children key with
  | some c =>
      rw [hget] at h
      cases h
      exact hp
  | none =>
      rw [hget] at h
      cases seg with
      | nil =>
          cases h
          exact vsorted_setLoc_lit hp (vsorted_of_leaf rfl rfl)
      | cons c0 cs =>
          simp only at h
          by_cases hdc : isDoubleColon (c0 :: cs)
          · rw [if_pos hdc] at h
            cases h
            exact vsorted_setLoc_lit hp (vsorted_of_leaf rfl rfl)
          · rw [if_neg hdc] at h
            by_cases hcolon : c0 = ':'
            · rw [if_pos hcolon] at h
              -- parseParam / attachParam
              unfold parseParam at h
              cases hlast : cs.getLast? with
              | none => rw [hlast] at h; cases h
              | some lastC =>
                  rw [hlast] at h
                  dsimp only at h
                  have hattach : ∀ (nameF sfx : Str) (rsrc : Option Str) (wild : Bool),
                      attachParam parent (c0 :: cs) nameF sfx rsrc wild = .ok (p1, loc) →
                      VSorted p1 := by
                    intro nameF sfx rsrc wild ha
                    unfold attachParam at ha
                    dsimp only at ha
                    by_cases hw : ¬ isWord nameF
                    · rw [if_pos hw] at ha
                      cases ha
                    · rw [if_neg hw] at ha
                      cases hrec : reconLoop (.mk nameF [] [] (c0 :: cs) sfx false wild [] [] []
                          (rsrc.map mustCompile)) parent.varyChildren with
                      | error e => rw [hrec] at ha; cases ha
                      | ok o =>
                          rw [hrec] at ha
                          cases o with
                          | some c => cases ha; exact hp
                          | none =>
                              cases ha
                              refine VSorted.intro _ ?_ ?_ ?_
                              · simp only [Node.varyChildren_setVaryChildren]
                                by_cases hlen : 1 < (parent.varyChildren ++
                                    [Node.mk nameF [] [] (c0 :: cs) sfx false wild [] [] []
                                      (rsrc.map mustCompile)]).length
                                · rw [if_pos hlen]
                                  exact sortVary_sorted _
                                · rw [if_neg hlen]
                                  have : parent.varyChildren = [] := by
                                    cases hvc : parent.varyChildren with
                                    | nil => rfl
                                    | cons a as =>
                                        exfalso
                                        apply hlen
                                        rw [hvc]
                                        simp <;> omega
                                  rw [this]
                                  simp
                              · simp only [Node.children_setVaryChildren]
                                exact hp.onChildren
                              · simp only [Node.varyChildren_setVaryChildren]
                                intro c hc
                                have hmem : c ∈ parent.varyChildren ++
                                    [Node.mk nameF [] [] (c0 :: cs) sfx false wild [] [] []
                                      (rsrc.map mustCompile)] := by
                                  by_cases hlen : 1 < (parent.varyChildren ++
                                      [Node.mk nameF [] [] (c0 :: cs) sfx false wild [] [] []
                                        (rsrc.map mustCompile)]).length
                                  · rw [if_pos hlen] at hc
                                    exact mem_sortVary.mp hc
                                  · rw [if_neg hlen] at hc
                                    exact hc
                                rcases List.mem_append.mp hmem with hm | hm
                                · exact hp.onVary c hm
                                · have : c = Node.mk nameF [] [] (c0 :: cs) sfx false wild [] [] []
                                      (rsrc.map mustCompile) := by simpa using hm
                                  rw [this]
                                  exact vsorted_of_leaf rfl rfl
                  by_cases hstar : lastC = '*'
                  · rw [if_pos hstar] at h
                    exact hattach _ _ _ _ h
                  · rw [if_neg hstar] at h
                    by_cases hsfx : suffixFind cs ≠ [] ∧ (suffixFind cs).drop 1 = []
                    · rw [if_pos hsfx] at h
                      cases h
                    · rw [if_neg hsfx] at h
                      by_cases hpar : (if suffixFind cs ≠ [] then
                            cs.take (cs.length - (suffixFind cs).length) else cs).getLastD ' ' = ')'
                      · rw [if_pos hpar] at h
                        cases hidx : idxOfChar '(' (if suffixFind cs ≠ [] then
                            cs.take (cs.length - (suffixFind cs).length) else cs) with
                        | none => rw [hidx] at h; exact hattach _ _ _ _ h
                        | some i =>
                            rw [hidx] at h
                            dsimp only at h
                            by_cases hi : 0 < i
                            · rw [if_pos hi] at h
                              by_cases hrs : ¬ ((if suffixFind cs ≠ [] then
                                    cs.take (cs.length - (suffixFind cs).length) else cs).drop
                                      (i + 1)).dropLast.isEmpty
                              · rw [if_pos hrs] at h
                                exact hattach _ _ _ _ h
                              · rw [if_neg hrs] at h
                                cases h
                            · rw [if_neg hi] at h
                              exact hattach _ _ _ _ h
                      · rw [if_neg hpar] at h
                        exact hattach _ _ _ _ h
            · rw [if_neg hcolon] at h
              by_cases hbad : c0 = '*' ∨ c0 = '(' ∨ c0 = ')'
              · rw [if_pos hbad] at h
                cases h
              · rw [if_neg hbad] at h
                by_cases hlast : (c0 :: cs).getLastD ' ' = '*'
                · rw [if_pos hlast] at h
                  cases h
                  exact vsorted_setLoc_lit hp (vsorted_of_leaf rfl rfl)
                · rw [if_neg hlast] at h
                  cases h
                  exact vsorted_setLoc_lit hp (vsorted_of_leaf rfl rfl)

/-- `parseNode` only ever touches the parent's `children` or
`varyChildren` (never its own scalar fields). -/
theorem attachParam_shape {parent p1 : Node} {segment nameF sfx : Str}
    {rsrc : Option Str} {wild : Bool} {loc : ChildLoc}
    (h : attachParam parent segment nameF sfx rsrc wild = .ok (p1, loc)) :
    p1 = parent ∨ ∃ vc, p1 = parent.setVaryChildren vc := by
  unfold attachParam at h
  dsimp only at h
  by_cases hw : ¬ isWord nameF
  · rw [if_pos hw] at h
    cases h
  · rw [if_neg hw] at h
    cases hrec : reconLoop (.mk nameF [] [] segment sfx false wild [] [] []
        (rsrc.map mustCompile)) parent.varyChildren with
    | error e => rw [hrec] at h; cases h
    | ok o =>
        rw [hrec] at h
        cases o with
        | some c =>
            cases h
            exact Or.inl rfl
        | none =>
            cases h
            exact Or.inr ⟨_, rfl⟩

theorem parseParam_shape {parent p1 : Node} {segment name0 : Str} {loc : ChildLoc}
    (h : parseParam parent segment name0 = .ok (p1, loc)) :
    p1 = parent ∨ ∃ vc, p1 = parent.setVaryChildren vc := by
  unfold parseParam at h
  dsimp only at h
  cases hlast : name0.getLast? with
  | none => rw [hlast] at h; cases h
  | some lastC =>
      rw [hlast] at h
      dsimp only at h
      repeat' split at h
      all_goals first
        | cases h
        | exact attachParam_shape h

theorem parseNode_shape {parent p1 : Node} {seg : Str} {ic : Bool} {loc : ChildLoc}
    (h : parseNode parent seg ic = .ok (p1, loc)) :
    p1 = parent ∨ (∃ ch, p1 = parent.setChildren ch) ∨
      ∃ vc, p1 = parent.setVaryChildren vc := by
  unfold parseNode at h
  dsimp only at h
  cases hget : alGet parent.children (litKey seg ic) with
  | some c =>
      rw [hget] at h
      cases h
      exact Or.inl rfl
  | none =>
      rw [hget] at h
      cases seg with
      | nil =>
          cases h
          exact Or.inr (Or.inl ⟨_, rfl⟩)
      | cons c0 cs =>
          dsimp only at h
          split at h
          · cases h
            exact Or.inr (Or.inl ⟨_, rfl⟩)
          · split at h
            · rcases parseParam_shape h with h1 | h1
              · exact Or.inl h1
              · exact Or.inr (Or.inr h1)
            · split at h
              · cases h
              · split at h
                · cases h
                  exact Or.inr (Or.inl ⟨_, rfl⟩)
                · cases h
                  exact Or.inr (Or.inl ⟨_, rfl⟩)


theorem sameScalars_refl (a : Node) : sameScalars a a :=
  ⟨rfl, rfl, rfl, rfl, rfl, rfl, rfl, rfl, rfl⟩

theorem sameScalars_trans {a b c : Node} (h1 : sameScalars a b) (h2 : sameScalars b c) :
    sameScalars a c := by
  obtain ⟨a1, a2, a3, a4, a5, a6, a7, a8, a9⟩ := h1
  obtain ⟨b1, b2, b3, b4, b5, b6, b7, b8, b9⟩ := h2
  exact ⟨a1.trans b1, a2.trans b2, a3.trans b3, a4.trans b4, a5.trans b5,
    a6.trans b6, a7.trans b7, a8.trans b8, a9.trans b9⟩

theorem sameScalars_setChildren (n : Node) (ch : List (Str × Node)) :
    sameScalars (n.setChildren ch) n := by
  refine ⟨?_, ?_, ?_, ?_, ?_, ?_, ?_, ?_, ?_⟩ <;> simp

theorem sameScalars_setVaryChildren (n : Node) (vc : List Node) :
    sameScalars (n.setVaryChildren vc) n := by
  refine ⟨?_, ?_, ?_, ?_, ?_, ?_, ?_, ?_, ?_⟩ <;> simp

theorem sameScalars_setLoc (n : Node) (loc : ChildLoc) (v : Node) :
    sameScalars (setLoc n loc v) n := by
  cases loc with
  | lit key => exact sameScalars_setChildren n _
  | vary sg => exact sameScalars_setVaryChildren n _

theorem parseNode_scalars {parent p1 : Node} {seg : Str} {ic : Bool} {loc : ChildLoc}
    (h : parseNode parent seg ic = .ok (p1, loc)) : sameScalars p1 parent := by
  rcases parseNode_shape h with h1 | ⟨ch, h1⟩ | ⟨vc, h1⟩
  · rw [h1]
    exact sameScalars_refl parent
  · rw [h1]
    exact sameScalars_setChildren parent ch
  · rw [h1]
    exact sameScalars_setVaryChildren parent vc

/-- `defineNode` never changes the scalar fields of the node it is
called on (it only extends the subtree below it). -/
theorem defineNode_scalars {parent p2 : Node} {segs : List Str} {ic : Bool}
    {pat : Str} {lp : List ChildLoc}
    (h : defineNode parent segs ic pat = .ok (p2, lp)) : sameScalars p2 parent := by
  induction segs generalizing parent p2 lp with
  | nil => simp [defineNode] at h
  | cons seg rest ih =>
      unfold defineNode at h
      cases hpn : parseNode parent seg ic with
      | error e => rw [hpn] at h; cases h
      | ok pr =>
          obtain ⟨p1, loc⟩ := pr
          rw [hpn] at h
          dsimp only at h
          cases hget : getLoc p1 loc with
          | none => rw [hget] at h; cases h
          | some child =>
              rw [hget] at h
              dsimp only at h
              by_cases hrest : rest.isEmpty
              · rw [if_pos hrest] at h
                cases h
                exact sameScalars_trans (sameScalars_setLoc p1 loc _) (parseNode_scalars hpn)
              · rw [if_neg hrest] at h
                by_cases hw : child.wildcard = true
                · rw [if_pos hw] at h
                  cases h
                · rw [if_neg hw] at h
                  cases hrec : defineNode child rest ic pat with
                  | error e => rw [hrec] at h; cases h
                  | ok pr2 =>
                      obtain ⟨child2, lp2⟩ := pr2
                      rw [hrec] at h
                      cases h
                      exact sameScalars_trans (sameScalars_setLoc p1 loc _)
                        (parseNode_scalars hpn)

@[simp] theorem Node.sig_markEnd (n : Node) (pat : Str) :
    (n.markEnd pat).sig = n.sig := by
  simp [Node.sig]

theorem sig_eq_of_sameScalars {a b : Node} (h : sameScalars a b) : a.sig = b.sig := by
  obtain ⟨-, -, -, -, h5, -, h7, -, h9⟩ := h
  simp [Node.sig, h5, h7, h9]

theorem vsorted_setLoc {parent v : Node} {loc : ChildLoc}
    (hp : VSorted parent) (hv : VSorted v)
    (hsig : ∀ sg, loc = .vary sg → v.sig = sg) :
    VSorted (setLoc parent loc v) := by
  cases loc with
  | lit key => exact vsorted_setLoc_lit hp hv
  | vary sg => exact vsorted_setLoc_vary hp hv (hsig sg rfl)

theorem getLoc_vary_sig {parent v : Node} {sg : VarySig}
    (h : getLoc parent (.vary sg) = some v) : v.sig = sg :=
  findVary_sig h

/-- `defineNode` keeps every `varyChildren` list priority-sorted. -/
theorem defineNode_vsorted {parent p2 : Node} {segs : List Str} {ic : Bool}
    {pat : Str} {lp : List ChildLoc}
    (hp : VSorted parent) (h : defineNode parent segs ic pat = .ok (p2, lp)) :
    VSorted p2 := by
  induction segs generalizing parent p2 lp with
  | nil => simp [defineNode] at h
  | cons seg rest ih =>
      unfold defineNode at h
      cases hpn : parseNode parent seg ic with
      | error e => rw [hpn] at h; cases h
      | ok pr =>
          obtain ⟨p1, loc⟩ := pr
          rw [hpn] at h
          dsimp only at h
          have hp1 : VSorted p1 := parseNode_vsorted hp hpn
          cases hget : getLoc p1 loc with
          | none => rw [hget] at h; cases h
          | some child =>
              rw [hget] at h
              dsimp only at h
              have hchild : VSorted child := vsorted_getLoc hp1 hget
              by_cases hrest : rest.isEmpty
              · rw [if_pos hrest] at h
                cases h
                refine vsorted_setLoc hp1 (vsorted_markEnd hchild pat) ?_
                intro sg hloc
                rw [Node.sig_markEnd]
                exact getLoc_vary_sig (hloc ▸ hget)
              · rw [if_neg hrest] at h
                by_cases hw : child.wildcard = true
                · rw [if_pos hw] at h
                  cases h
                · rw [if_neg hw] at h
                  cases hrec : defineNode child rest ic pat with
                  | error e => rw [hrec] at h; cases h
                  | ok pr2 =>
                      obtain ⟨child2, lp2⟩ := pr2
                      rw [hrec] at h
                      cases h
                      refine vsorted_setLoc hp1 (ih hchild hrec) ?_
                      intro sg hloc
                      rw [sig_eq_of_sameScalars (defineNode_scalars hrec)]
                      exact getLoc_vary_sig (hloc ▸ hget)

/-- `Define` keeps every `varyChildren` list priority-sorted. -/
theorem define_vsorted {t t1 : Trie} {p : Str} {lp : List ChildLoc}
    (hp : VSorted t.root) (h : t.define p = .ok (t1, lp)) : VSorted t1.root := by
  unfold Trie.define at h
  by_cases hdd : containsDD p = true
  · rw [if_pos hdd] at h
    cases h
  · rw [if_neg hdd] at h
    cases hdn : defineNode t.root (splitSlash (cutQuery (stripLeadSlash p))) t.ignoreCase p with
    | error e => rw [hdn] at h; cases h
    | ok pr =>
        obtain ⟨root1, lp1⟩ := pr
        rw [hdn] at h
        cases h
        exact defineNode_vsorted hp hdn

theorem buildAll_vsorted {pats : List Str} {t t' : Trie}
    (hp : VSorted t.root) (h : buildAll t pats = some t') : VSorted t'.root := by
  induction pats generalizing t with
  | nil =>
      simp [buildAll] at h
      rw [← h]
      exact hp
  | cons p ps ih =>
      unfold buildAll at h
      cases hd : t.define p with
      | error e => rw [hd] at h; cases h
      | ok pr =>
          obtain ⟨t1, lp⟩ := pr
          rw [hd] at h
          exact ih (define_vsorted hp hd) h


/-- C2: (a) after every sequence of `Define` calls on a fresh trie,
every node's `vary_children` is weakly decreasing in priority class;
(b) the sort used by `parseNode` is exactly the stable priority
ordering — the suffix+regex nodes in insertion order, then suffix-only,
then regex-only, then the rest in insertion order; (c) `matchNode`
descends into the *first* stored candidate that accepts the segment;
(d) concretely, the attachable siblings `:x(re1)+sfx`, `:x+sfx`,
`:x(re1)`, `:x`, `:x*` end up stored — and are hence tried — in exactly
that order, and matching picks the first accepting one. -/
theorem c2_vary_priority :
    (∀ (pats : List Str) (ic fprF tsrF : Bool) (t' : Trie),
        buildAll (Trie.new ic fprF tsrF) pats = some t' → VSorted t'.root) ∧
    (∀ l : List Node, sortVary l =
        prioFilter 3 l ++ prioFilter 2 l ++ prioFilter 1 l ++ prioFilter 0 l) ∧
    (∀ (seg : Str) (l : List Node),
        varyLoop seg l = l.find? (fun c => varyAccepts c seg)) ∧
    buildAll newDefault pats5 = some trieOrder ∧
    trieOrder.root.varyChildren.map (fun c => (c.sig, c.name)) =
      [((("sfx").data, some ("re1").data, false), ("x").data),
       ((("sfx").data, none, false), ("x").data),
       (([], some ("re1").data, false), ("x").data),
       (([], none, false), ("x").data),
       (([], none, true), ("x").data)] ∧
    (trieOrder.matchPath ("/zre1zsfx").data).map viewM =
      some (some ("/:x(re1)+sfx").data, [(("x").data, ("zre1z").data)], [], []) ∧
    (trieOrder.matchPath ("/absfx").data).map viewM =
      some (some ("/:x+sfx").data, [(("x").data, ("ab").data)], [], []) ∧
    (trieOrder.matchPath ("/zre1z").data).map viewM =
      some (some ("/:x(re1)").data, [(("x").data, ("zre1z").data)], [], []) ∧
    (trieOrder.matchPath ("/hello").data).map viewM =
      some (some ("/:x").data, [(("x").data, ("hello").data)], [], []) := by
  refine ⟨?_, sortVary_classes, varyLoop_eq_findFirst, rfl, rfl, rfl, rfl, rfl, rfl⟩
  intro pats ic fprF tsrF t' h
  exact buildAll_vsorted (vsorted_of_leaf (by rfl) (by rfl)) h

/-- Witness for C2: the invariant holds for the concrete five-sibling
trie, via the general build theorem. -/
theorem c2_vary_priority_witness : VSorted trieOrder.root :=
  c2_vary_priority.1 pats5 true true true trieOrder (by rfl)

/-- C4, counterexample: with `/:b+D` defined, the run with
`ignore_case` on fails to match `/xD` while the run with `ignore_case`
off matches it — parametric (suffix) acceptance is *not* invariant
under the option, because the folded segment `xd` does not end in `D`. -/
theorem c4_fold_counterexample :
    ((Trie.new true true true).define ("/:b+D").data).isOk = true ∧
    ((Trie.new false true true).define ("/:b+D").data).isOk = true ∧
    (trieIcOn.matchPath ("/xD").data).map (fun m => m.node.isSome) = some false ∧
    (trieIcOff.matchPath ("/xD").data).map (fun m => m.node.isSome) = some true :=
  ⟨rfl, rfl, rfl, rfl⟩

/-- C4, amended: with `ignore_case` on, `Match` folds the segment
*before* `matchNode`, so suffixes and regexes are tested against the
lower-cased copy: child selection with `ignore_case` on at `seg` equals
selection with `ignore_case` off at `toLower(seg)`; the two runs agree
exactly on the segments unchanged by folding.  (Captures still come
from the unfolded segment — that is C5.) -/
theorem c4_fold_scope :
    (∀ (parent : Node) (seg : Str),
        matchNode parent (if true then lowerStr seg else seg) =
          matchNode parent (if false then lowerStr seg else seg) ↔
        matchNode parent (lowerStr seg) = matchNode parent seg) ∧
    (∀ (parent : Node) (seg : Str), lowerStr seg = seg →
        matchNode parent (if true then lowerStr seg else seg) =
          matchNode parent (if false then lowerStr seg else seg)) := by
  constructor
  · intro parent seg
    simp
  · intro parent seg h
    simp [h]

/-- Witness for C4's amended theorem at a concrete fold-invariant
segment. -/
theorem c4_fold_scope_witness :
    matchNode trieIcOn.root (if true then lowerStr ("xd").data else ("xd").data) =
      matchNode trieIcOn.root (if false then lowerStr ("xd").data else ("xd").data) :=
  c4_fold_scope.2 trieIcOn.root ("xd").data (by rfl)

/-! ## The wildcard-leaf invariant (C8, I4) -/


theorem WildFree.self {n : Node} (h : WildFree n) :
    n.wildcard = true → n.children = [] ∧ n.varyChildren = [] := by
  cases h with
  | intro n hw hc hv => exact hw

theorem WildFree.onChildNodes {n : Node} (h : WildFree n) :
    ∀ kv ∈ n.children, WildFree kv.2 := by
  cases h with
  | intro n hw hc hv => exact hc

theorem WildFree.onVaryNodes {n : Node} (h : WildFree n) :
    ∀ c ∈ n.varyChildren, WildFree c := by
  cases h with
  | intro n hw hc hv => exact hv

theorem wildfree_of_leaf {n : Node} (h1 : n.children = []) (h2 : n.varyChildren = []) :
    WildFree n := by
  refine WildFree.intro n (fun _ => ⟨h1, h2⟩) ?_ ?_ <;> simp [h1, h2]

theorem attachParam_members {parent p1 : Node} {segment nameF sfx : Str}
    {rsrc : Option Str} {wild : Bool} {loc : ChildLoc}
    (h : attachParam parent segment nameF sfx rsrc wild = .ok (p1, loc)) :
    p1.children = parent.children ∧
    ∀ c ∈ p1.varyChildren, c ∈ parent.varyChildren ∨
      (c.children = [] ∧ c.varyChildren = []) := by
  unfold attachParam at h
  dsimp only at h
  by_cases hw : ¬ isWord nameF
  · rw [if_pos hw] at h
    cases h
  · rw [if_neg hw] at h
    cases hrec : reconLoop (.mk nameF [] [] segment sfx false wild [] [] []
        (rsrc.map mustCompile)) parent.varyChildren with
    | error e => rw [hrec] at h; cases h
    | ok o =>
        rw [hrec] at h
        cases o with
        | some c =>
            cases h
            exact ⟨rfl, fun c hc => Or.inl hc⟩
        | none =>
            cases h
            refine ⟨by simp, ?_⟩
            intro c hc
            rw [Node.varyChildren_setVaryChildren] at hc
            have hmem : c ∈ parent.varyChildren ++ [Node.mk nameF [] [] segment sfx false wild
                [] [] [] (rsrc.map mustCompile)] := by
              by_cases hlen : 1 < (parent.varyChildren ++ [Node.mk nameF [] [] segment sfx
                  false wild [] [] [] (rsrc.map mustCompile)]).length
              · rw [if_pos hlen] at hc
                exact mem_sortVary.mp hc
              · rw [if_neg hlen] at hc
                exact hc
            rcases List.mem_append.mp hmem with hm | hm
            · exact Or.inl hm
            · right
              have : c = Node.mk nameF [] [] segment sfx false wild [] [] []
                  (rsrc.map mustCompile) := by simpa using hm
              rw [this]
              exact ⟨rfl, rfl⟩

theorem parseParam_members {parent p1 : Node} {segment name0 : Str} {loc : ChildLoc}
    (h : parseParam parent segment name0 = .ok (p1, loc)) :
    p1.children = parent.children ∧
    ∀ c ∈ p1.varyChildren, c ∈ parent.varyChildren ∨
      (c.children = [] ∧ c.varyChildren = []) := by
  unfold parseParam at h
  dsimp only at h
  cases hlast : name0.getLast? with
  | none => rw [hlast] at h; cases h
  | some lastC =>
      rw [hlast] at h
      dsimp only at h
      repeat' split at h
      all_goals first
        | cases h
        | exact attachParam_members h

theorem parseNode_members {parent p1 : Node} {seg : Str} {ic : Bool} {loc : ChildLoc}
    (h : parseNode parent seg ic = .ok (p1, loc)) :
    (∀ kv ∈ p1.children, kv ∈ parent.children ∨
      (kv.2.children = [] ∧ kv.2.varyChildren = [])) ∧
    ∀ c ∈ p1.varyChildren, c ∈ parent.varyChildren ∨
      (c.children = [] ∧ c.varyChildren = []) := by
  unfold parseNode at h
  dsimp only at h
  cases hget : alGet parent.children (litKey seg ic) with
  | some c =>
      rw [hget] at h
      cases h
      exact ⟨fun kv hkv => Or.inl hkv, fun c hc => Or.inl hc⟩
  | none =>
      rw [hget] at h
      have hlit : ∀ (key : Str) (v : Node), v.children = [] → v.varyChildren = [] →
          (∀ kv ∈ (setLoc parent (.lit key) v).children, kv ∈ parent.children ∨
            (kv.2.children = [] ∧ kv.2.varyChildren = [])) ∧
          ∀ c ∈ (setLoc parent (.lit key) v).varyChildren, c ∈ parent.varyChildren ∨
            (c.children = [] ∧ c.varyChildren = []) := by
        intro key v h1 h2
        constructor
        · intro kv hkv
          simp only [setLoc, Node.children_setChildren] at hkv
          rcases mem_alPut hkv with hm | hm
          · right
            rw [hm]
            exact ⟨h1, h2⟩
          · exact Or.inl hm
        · intro c hc
          simp only [setLoc, Node.varyChildren_setChildren] at hc
          exact Or.inl hc
      cases seg with
      | nil =>
          cases h
          exact hlit _ _ rfl rfl
      | cons c0 cs =>
          dsimp only at h
          split at h
          · cases h
            exact hlit _ _ rfl rfl
          · split at h
            · have hpp := parseParam_members h
              exact ⟨fun kv hkv => Or.inl (hpp.1 ▸ hkv), hpp.2⟩
            · split at h
              · cases h
              · split at h
                · cases h
                  exact hlit _ _ rfl rfl
                · cases h
                  exact hlit _ _ rfl rfl

theorem parseNode_wildfree {parent p1 : Node} {seg : Str} {ic : Bool} {loc : ChildLoc}
    (hpw : parent.wildcard = false) (hp : WildFree parent)
    (h : parseNode parent seg ic = .ok (p1, loc)) : WildFree p1 := by
  have hsca := parseNode_scalars h
  have hmem := parseNode_members h
  refine WildFree.intro p1 ?_ ?_ ?_
  · intro habs
    rw [hsca.2.2.2.2.2.2.1, hpw] at habs
    cases habs
  · intro kv hkv
    rcases hmem.1 kv hkv with hm | hm
    · exact hp.onChildNodes kv hm
    · exact wildfree_of_leaf hm.1 hm.2
  · intro c hc
    rcases hmem.2 c hc with hm | hm
    · exact hp.onVaryNodes c hm
    · exact wildfree_of_leaf hm.1 hm.2

theorem wildfree_markEnd {n : Node} (h : WildFree n) (pat : Str) :
    WildFree (n.markEnd pat) := by
  refine WildFree.intro _ ?_ ?_ ?_
  · rw [Node.wildcard_markEnd, Node.children_markEnd, Node.varyChildren_markEnd]
    exact h.self
  · rw [Node.children_markEnd]
    exact h.onChildNodes
  · rw [Node.varyChildren_markEnd]
    exact h.onVaryNodes

theorem wildfree_setLoc {parent v : Node} {loc : ChildLoc}
    (hpw : parent.wildcard = false) (hp : WildFree parent) (hv : WildFree v) :
    WildFree (setLoc parent loc v) := by
  cases loc with
  | lit key =>
      refine WildFree.intro _ ?_ ?_ ?_
      · intro habs
        simp only [setLoc, Node.wildcard_setChildren, hpw] at habs
        cases habs
      · simp only [setLoc, Node.children_setChildren]
        intro kv hkv
        rcases mem_alPut hkv with hm | hm
        · rw [hm]
          exact hv
        · exact hp.onChildNodes kv hm
      · simp only [setLoc, Node.varyChildren_setChildren]
        exact hp.onVaryNodes
  | vary sg =>
      refine WildFree.intro _ ?_ ?_ ?_
      · intro habs
        simp only [setLoc, Node.wildcard_setVaryChildren, hpw] at habs
        cases habs
      · simp only [setLoc, Node.children_setVaryChildren]
        exact hp.onChildNodes
      · simp only [setLoc, Node.varyChildren_setVaryChildren]
        intro c hc
        rcases mem_replaceVary_strong hc with ⟨hm, -⟩ | hm
        · rw [hm]
          exact hv
        · exact hp.onVaryNodes c hm

theorem wildfree_getLoc {parent v : Node} {loc : ChildLoc}
    (hp : WildFree parent) (h : getLoc parent loc = some v) : WildFree v := by
  cases loc with
  | lit key => exact hp.onChildNodes (key, v) (alGet_mem h)
  | vary sg => exact hp.onVaryNodes v (findVary_mem h)

/-- `defineNode` preserves invariant I4 (no children under wildcards):
it refuses to descend into a wildcard child, and new nodes are leaves. -/
theorem defineNode_wildfree {parent p2 : Node} {segs : List Str} {ic : Bool}
    {pat : Str} {lp : List ChildLoc}
    (hpw : parent.wildcard = false) (hp : WildFree parent)
    (h : defineNode parent segs ic pat = .ok (p2, lp)) : WildFree p2 := by
  induction segs generalizing parent p2 lp with
  | nil => simp [defineNode] at h
  | cons seg rest ih =>
      unfold defineNode at h
      cases hpn : parseNode parent seg ic with
      | error e => rw [hpn] at h; cases h
      | ok pr =>
          obtain ⟨p1, loc⟩ := pr
          rw [hpn] at h
          dsimp only at h
          have hp1 : WildFree p1 := parseNode_wildfree hpw hp hpn
          have hp1w : p1.wildcard = false :=
            ((parseNode_scalars hpn).2.2.2.2.2.2.1).trans hpw
          cases hget : getLoc p1 loc with
          | none => rw [hget] at h; cases h
          | some child =>
              rw [hget] at h
              dsimp only at h
              have hchild : WildFree child := wildfree_getLoc hp1 hget
              by_cases hrest : rest.isEmpty
              · rw [if_pos hrest] at h
                cases h
                exact wildfree_setLoc hp1w hp1 (wildfree_markEnd hchild pat)
              · rw [if_neg hrest] at h
                by_cases hw : child.wildcard = true
                · rw [if_pos hw] at h
                  cases h
                · rw [if_neg hw] at h
                  cases hrec : defineNode child rest ic pat with
                  | error e => rw [hrec] at h; cases h
                  | ok pr2 =>
                      obtain ⟨child2, lp2⟩ := pr2
                      rw [hrec] at h
                      cases h
                      exact wildfree_setLoc hp1w hp1
                        (ih (Bool.not_eq_true _ ▸ hw) hchild hrec)

theorem define_wildfree {t t1 : Trie} {p : Str} {lp : List ChildLoc}
    (hpw : t.root.wildcard = false) (hp : WildFree t.root)
    (h : t.define p = .ok (t1, lp)) : WildFree t1.root := by
  unfold Trie.define at h
  by_cases hdd : containsDD p = true
  · rw [if_pos hdd] at h
    cases h
  · rw [if_neg hdd] at h
    cases hdn : defineNode t.root (splitSlash (cutQuery (stripLeadSlash p))) t.ignoreCase p with
    | error e => rw [hdn] at h; cases h
    | ok pr =>
        obtain ⟨root1, lp1⟩ := pr
        rw [hdn] at h
        cases h
        exact defineNode_wildfree hpw hp hdn

theorem define_root_wildcard {t t1 : Trie} {p : Str} {lp : List ChildLoc}
    (hpw : t.root.wildcard = false) (h : t.define p = .ok (t1, lp)) :
    t1.root.wildcard = false := by
  unfold Trie.define at h
  by_cases hdd : containsDD p = true
  · rw [if_pos hdd] at h
    cases h
  · rw [if_neg hdd] at h
    cases hdn : defineNode t.root (splitSlash (cutQuery (stripLeadSlash p))) t.ignoreCase p with
    | error e => rw [hdn] at h; cases h
    | ok pr =>
        obtain ⟨root1, lp1⟩ := pr
        rw [hdn] at h
        cases h
        exact ((defineNode_scalars hdn).2.2.2.2.2.2.1).trans hpw

theorem buildAll_wildfree {pats : List Str} {t t' : Trie}
    (hpw : t.root.wildcard = false) (hp : WildFree t.root)
    (h : buildAll t pats = some t') : WildFree t'.root := by
  induction pats generalizing t with
  | nil =>
      simp [buildAll] at h
      rw [← h]
      exact hp
  | cons p ps ih =>
      unfold buildAll at h
      cases hd : t.define p with
      | error e => rw [hd] at h; cases h
      | ok pr =>
          obtain ⟨t1, lp⟩ := pr
          rw [hd] at h
          exact ih (define_root_wildcard hpw hd) (define_wildfree hpw hp hd) h

/-- C8, counterexample: after `Define("/::name*")` (a double-colon
literal stored under the key `:name*`), `Define("/:name*/x")` succeeds
without panicking — the `:name*` segment hits that literal child during
lookup and never parses as a wildcard — refuting "for every pattern in
which a wildcard segment (:name*) is followed by at least one further
segment, Define panics". -/
theorem c8_escape_counterexample :
    (newDefault.define ("/::name*").data).isOk = true ∧
    ((defStep newDefault ("/::name*").data).define ("/:name*/x").data).isOk = true :=
  ⟨rfl, rfl⟩

/-- C8, amended: `Define` panics exactly when the segment resolves (by
parse or reuse) to a wildcard *node* and further segments follow — on a
fresh default trie `Define("/:a*/b")` panics with DefineAfterWildcard —
the only escape being a `::name*` double-colon literal already claiming
the `:name*` key; and invariant I4 holds unconditionally: every
wildcard node in any trie reachable by `Define` calls has no child
nodes, literal or parametric. -/
theorem c8_wildcard_leaf :
    (∀ (parent : Node) (seg : Str) (rest : List Str) (ic : Bool) (pat : Str)
        (p1 child : Node) (loc : ChildLoc), rest ≠ [] →
        parseNode parent seg ic = .ok (p1, loc) →
        getLoc p1 loc = some child → child.wildcard = true →
        defineNode parent (seg :: rest) ic pat = .error .afterWildcard) ∧
    (∀ (pats : List Str) (ic fprF tsrF : Bool) (t' : Trie),
        buildAll (Trie.new ic fprF tsrF) pats = some t' → WildFree t'.root) ∧
    newDefault.define ("/:a*/b").data = .error .afterWildcard := by
  refine ⟨?_, ?_, rfl⟩
  · intro parent seg rest ic pat p1 child loc hrest hpn hget hw
    unfold defineNode
    rw [hpn]
    dsimp only
    rw [hget]
    dsimp only
    rw [if_neg (by simpa [List.isEmpty_iff] using hrest), if_pos hw]
  · intro pats ic fprF tsrF t' h
    exact buildAll_wildfree (by rfl) (wildfree_of_leaf (by rfl) (by rfl)) h

/-- Witness for C8's amended theorem: the invariant instantiated on the
concrete wildcard trie `/a/:b*`, and the first conjunct on its parse
step. -/
theorem c8_wildcard_leaf_witness :
    WildFree (defStep newDefault ("/a/:b*").data).root :=
  c8_wildcard_leaf.2.1 [("/a/:b*").data] true true true _ (by rfl)

/-! ## Mutual exclusion of the three match outcomes (C10) -/


theorem endEval_atMostOne (fprF tsrF dirty : Bool) (fixed : Str) (parent : Node)
    (params : List (Str × Str)) :
    atMostOne (endEval fprF tsrF dirty fixed parent params) := by
  unfold endEval atMostOne
  by_cases he : parent.endpoint = true
  · rw [if_pos he]
    by_cases hd : fprF ∧ dirty
    · rw [if_pos hd]
      exact ⟨by simp, by simp⟩
    · rw [if_neg hd]
      exact ⟨by simp, by simp⟩
  · rw [if_neg he]
    by_cases hc : tsrF ∧ (parent.getChild []).isSome
    · rw [if_pos hc]
      by_cases hd : fprF ∧ dirty
      · rw [if_pos hd]
        exact ⟨by simp, by simp⟩
      · rw [if_neg hd]
        exact ⟨by simp, by simp⟩
    · rw [if_neg hc]
      exact ⟨by simp, by simp⟩

theorem matchLoop_atMostOne (ic fprF tsrF dirty : Bool) (fixed : Str) :
    ∀ (segs : List Str) (parent : Node) (params : List (Str × Str)),
      atMostOne (matchLoop ic fprF tsrF dirty fixed parent segs params) := by
  intro segs
  induction segs with
  | nil => intro parent params; exact endEval_atMostOne ..
  | cons seg rest ih =>
      intro parent params
      unfold matchLoop
      cases hmn : matchNode parent (if ic then lowerStr seg else seg) with
      | none =>
          dsimp only
          by_cases ht : tsrF ∧ parent.endpoint ∧ rest = [] ∧ seg = []
          · rw [if_pos ht]
            by_cases hd : fprF ∧ dirty
            · rw [if_pos hd]
              exact ⟨by simp, by simp⟩
            · rw [if_neg hd]
              exact ⟨by simp, by simp⟩
          · rw [if_neg ht]
            exact ⟨by simp, by simp⟩
      | some node =>
          dsimp only
          by_cases hn : node.name ≠ []
          · rw [if_pos hn]
            by_cases hw : node.wildcard = true
            · rw [if_pos hw]
              exact endEval_atMostOne ..
            · rw [if_neg hw]
              exact ih ..
          · rw [if_neg hn]
            exact ih ..

/-- C10: for every trie (any option combination) and every path
accepted by `Match`, the result has at most one outcome field set: a
non-nil `Node` forces empty `FPR` and `TSR`, and `FPR` and `TSR` are
never both non-empty. -/
theorem c10_outcomes_exclusive (t : Trie) (path : Str) (m : Matched)
    (h : t.matchPath path = some m) :
    (m.node.isSome = true → m.fpr = [] ∧ m.tsr = []) ∧
    ¬(m.fpr ≠ [] ∧ m.tsr ≠ []) := by
  unfold Trie.matchPath at h
  cases path with
  | nil => cases h
  | cons c rest =>
      dsimp only at h
      by_cases hc : c = '/'
      · rw [if_pos hc] at h
        cases h
        exact matchLoop_atMostOne ..
      · rw [if_neg hc] at h
        cases h

/-- Witness for C10 on a concrete trie and path. -/
theorem c10_outcomes_exclusive_witness :
    ((Matched.mk none [] [] (("/abc/efg").data)).node.isSome = true →
      (Matched.mk none [] [] (("/abc/efg").data)).fpr = [] ∧
      (Matched.mk none [] [] (("/abc/efg").data)).tsr = []) ∧
    ¬((Matched.mk none [] [] (("/abc/efg").data)).fpr ≠ [] ∧
      (Matched.mk none [] [] (("/abc/efg").data)).tsr ≠ []) :=
  c10_outcomes_exclusive trieS5 ("/abc/efg/").data _ (by rfl)


/-! ## Captured parameter values are byte substrings (C5) -/


theorem capShape_lift {segs : List Str} {seg : Str} {ic : Bool} {e : Str × Str}
    (h : capShape segs ic e) : capShape (seg :: segs) ic e := by
  obtain ⟨i, hi, p, c, hmn, hname, hcap⟩ := h
  refine ⟨i + 1, by simpa using Nat.succ_lt_succ hi, p, c, ?_, hname, ?_⟩
  · simpa using hmn
  · rcases hcap with ⟨hw, hcap⟩ | ⟨hw, hs, hcap⟩ | ⟨hw, hs, hcap⟩
    · exact Or.inl ⟨hw, by simpa using hcap⟩
    · exact Or.inr (Or.inl ⟨hw, hs, by simpa using hcap⟩)
    · exact Or.inr (Or.inr ⟨hw, hs, by simpa using hcap⟩)

theorem endEval_params (fprF tsrF dirty : Bool) (fixed : Str) (parent : Node)
    (params : List (Str × Str)) :
    (endEval fprF tsrF dirty fixed parent params).params = params := by
  unfold endEval
  split
  · split <;> rfl
  · split
    · split <;> rfl
    · rfl

theorem matchLoop_capShape (ic fprF tsrF dirty : Bool) (fixed : Str) :
    ∀ (segs : List Str) (parent : Node) (params : List (Str × Str)),
      ∀ e ∈ (matchLoop ic fprF tsrF dirty fixed parent segs params).params,
        e ∈ params ∨ capShape segs ic e := by
  intro segs
  induction segs with
  | nil =>
      intro parent params e he
      unfold matchLoop at he
      rw [endEval_params] at he
      exact Or.inl he
  | cons seg rest ih =>
      intro parent params e he
      unfold matchLoop at he
      cases hmn : matchNode parent (if ic then lowerStr seg else seg) with
      | none =>
          rw [hmn] at he
          dsimp only at he
          have : (if tsrF ∧ parent.endpoint = true ∧ rest = [] ∧ seg = [] then
              (if fprF ∧ dirty then Matched.mk none params fixed.dropLast []
               else Matched.mk none params [] fixed.dropLast)
              else Matched.mk none params [] []).params = params := by
            split
            · split <;> rfl
            · rfl
          rw [this] at he
          exact Or.inl he
      | some node =>
          rw [hmn] at he
          dsimp only at he
          by_cases hn : node.name ≠ []
          · rw [if_pos hn] at he
            by_cases hw : node.wildcard = true
            · rw [if_pos hw] at he
              rw [endEval_params] at he
              rcases mem_insertP he with hv | hv
              · right
                refine ⟨0, by simp, parent, node, by simpa using hmn, by rw [hv], ?_⟩
                refine Or.inl ⟨hw, ?_⟩
                rw [hv]
                simp
              · exact Or.inl hv
            · rw [if_neg hw] at he
              rcases ih node (insertP params node.name
                  (if node.suffix ≠ [] then seg.take (seg.length - node.suffix.length)
                   else seg)) e he with hv | hv
              · rcases mem_insertP hv with hv | hv
                · right
                  refine ⟨0, by simp, parent, node, by simpa using hmn, by rw [hv], ?_⟩
                  by_cases hs : node.suffix ≠ []
                  · refine Or.inr (Or.inr ⟨by simpa using hw, hs, ?_⟩)
                    rw [hv]
                    simp [hs]
                  · refine Or.inr (Or.inl ⟨by simpa using hw, by simpa using hs, ?_⟩)
                    rw [hv]
                    simp [hs]
                · exact Or.inl hv
              · exact Or.inr (capShape_lift hv)
          · rw [if_neg hn] at he
            rcases ih node params e he with hv | hv
            · exact Or.inl hv
            · exact Or.inr (capShape_lift hv)

/-- C5: for every successfully matched path, each `Params` entry is the
exact byte substring of the (possibly slash-normalized) path that its
segment captured: the whole tail from the segment's start for a
wildcard, the whole segment for a plain named parameter, and the
segment with the suffix length removed from the end for a suffix
parameter.  The entries come from the *unfolded* segments, so case
folding never alters the captured bytes. -/
theorem c5_capture_bytes (t : Trie) (path : Str) (m : Matched)
    (h : t.matchPath path = some m) (hn : m.node.isSome = true) :
    ∀ e ∈ m.params,
      capShape (splitSlash ((if t.fprOpt then fixPath path else path).drop 1))
        t.ignoreCase e := by
  unfold Trie.matchPath at h
  cases path with
  | nil => cases h
  | cons c rest =>
      dsimp only at h
      by_cases hc : c = '/'
      · rw [if_pos hc] at h
        cases h
        intro e he
        rcases matchLoop_capShape _ _ _ _ _ _ _ _ e he with hv | hv
        · cases hv
        · exact hv
      · rw [if_neg hc] at h
        cases h

/-- Witness for C5: the `type ↦ users` capture of S1 is the whole first
segment. -/
theorem c5_capture_bytes_witness :
    capShape (splitSlash ((if trieS1.fprOpt then fixPath ("/users").data
      else ("/users").data).drop 1)) trieS1.ignoreCase
      ((("type").data, ("users").data)) :=
  c5_capture_bytes trieS1 ("/users").data
    ((trieS1.matchPath ("/users").data).getD default) (by rfl) (by rfl)
    ((("type").data, ("users").data)) (by decide)

/-! ## Sibling reconciliation at Define (C6) -/


/-- For a non-wildcard candidate against wildcard-free siblings, the
reconciliation condition of the loop is exactly `shapeEqB`. -/
theorem reconLoop_cond {c node : Node} ( _hc : c.wildcard = false)
    (hn : node.wildcard = false) :
    ((¬ node.wildcard ∧ c.regex.isNone ∧ node.regex.isNone)
      ∨ (c.regex.isSome ∧ node.regex.isSome ∧ regexSrc c.regex = regexSrc node.regex))
      ∧ c.suffix = node.suffix ↔ shapeEqB c node = true := by
  unfold shapeEqB
  rw [decide_eq_true_iff]
  constructor
  · rintro ⟨hcond, hsfx⟩
    refine ⟨hsfx, ?_⟩
    rcases hcond with ⟨-, h1, h2⟩ | ⟨h1, h2, h3⟩
    · rw [Option.isNone_iff_eq_none] at h1 h2
      simp [regexSrc, h1, h2]
    · exact h3
  · rintro ⟨hsfx, hsrc⟩
    refine ⟨?_, hsfx⟩
    cases h1 : c.regex with
    | none =>
        cases h2 : node.regex with
        | none => exact Or.inl ⟨by simp [hn], by simp [h1], by simp [h2]⟩
        | some r2 =>
            rw [h1, h2] at hsrc
            simp [regexSrc] at hsrc
    | some r1 =>
        cases h2 : node.regex with
        | none =>
            rw [h1, h2] at hsrc
            simp [regexSrc] at hsrc
        | some r2 =>
            exact Or.inr ⟨by simp [h1], by simp [h2], by rw [h1, h2] at hsrc; exact hsrc⟩

/-- C6: against wildcard-free siblings, a non-wildcard parametric node
is reconciled by the first sibling of equal suffix and equal regex
source: equal name → that sibling is reused, different name → panic
(ConflictingParametric); if no sibling matches the shape, the node is
appended as a separate sibling (`.ok none` → append in `attachParam`).
Concretely at `Define` level: re-defining `/:a(x)` returns the same
location, `/:b(x)` after `/:a(x)` panics, and `/:a(y)` after `/:a(x)`
yields two separate siblings. -/
theorem c6_sibling_reconciliation :
    (∀ (vc : List Node) (node : Node),
      (∀ c ∈ vc, c.wildcard = false) → node.wildcard = false →
      (vc.find? (fun c => shapeEqB c node) = none → reconLoop node vc = .ok none) ∧
      (∀ c, vc.find? (fun c' => shapeEqB c' node) = some c →
        (c.name = node.name → reconLoop node vc = .ok (some c)) ∧
        (c.name ≠ node.name → reconLoop node vc = .error .nameConflict))) ∧
    lpOf (newDefault.define ("/:a(x)").data) =
      some [ChildLoc.vary ([], some ("x").data, false)] ∧
    lpOf ((defStep newDefault ("/:a(x)").data).define ("/:a(x)").data) =
      some [ChildLoc.vary ([], some ("x").data, false)] ∧
    errOf ((defStep newDefault ("/:a(x)").data).define ("/:b(x)").data) =
      some .nameConflict ∧
    (defStep (defStep newDefault ("/:a(x)").data) ("/:a(y)").data).root.varyChildren.map
        (fun c => (c.sig, c.name)) =
      [(([], some ("x").data, false), ("a").data),
       (([], some ("y").data, false), ("a").data)] := by
  refine ⟨?_, rfl, rfl, rfl, rfl⟩
  intro vc node hvc hn
  induction vc with
  | nil => exact ⟨fun _ => rfl, fun c hc => by cases hc⟩
  | cons c0 cs ih =>
      have hc0 : c0.wildcard = false := hvc c0 (by simp)
      have hcs : ∀ c ∈ cs, c.wildcard = false := fun c hc => hvc c (by simp [hc])
      have ihs := ih hcs
      constructor
      · intro hfind
        rw [List.find?_cons] at hfind
        cases hsh : shapeEqB c0 node with
        | true => rw [hsh] at hfind; cases hfind
        | false =>
            rw [hsh] at hfind
            unfold reconLoop
            rw [if_neg (by rw [hc0]; exact Bool.false_ne_true)]
            by_cases hsfx : c0.suffix ≠ node.suffix
            · rw [if_pos hsfx]
              exact ihs.1 hfind
            · rw [if_neg hsfx]
              rw [if_neg ?hcond]
              case hcond =>
                intro habs
                have : shapeEqB c0 node = true := by
                  rw [← reconLoop_cond hc0 hn]
                  exact ⟨habs, by simpa using hsfx⟩
                rw [this] at hsh
                cases hsh
              exact ihs.1 hfind
      · intro c hfind
        rw [List.find?_cons] at hfind
        cases hsh : shapeEqB c0 node with
        | true =>
            rw [hsh] at hfind
            cases hfind
            have hcond := (reconLoop_cond hc0 hn).mpr hsh
            constructor
            · intro hname
              unfold reconLoop
              rw [if_neg (by rw [hc0]; exact Bool.false_ne_true)]
              rw [if_neg (by simp [hcond.2])]
              rw [if_pos hcond.1]
              rw [if_neg (by simp [hname])]
            · intro hname
              unfold reconLoop
              rw [if_neg (by rw [hc0]; exact Bool.false_ne_true)]
              rw [if_neg (by simp [hcond.2])]
              rw [if_pos hcond.1]
              rw [if_pos hname]
        | false =>
            rw [hsh] at hfind
            have hrest := ihs.2 c hfind
            constructor
            · intro hname
              unfold reconLoop
              rw [if_neg (by rw [hc0]; exact Bool.false_ne_true)]
              by_cases hsfx : c0.suffix ≠ node.suffix
              · rw [if_pos hsfx]
                exact hrest.1 hname
              · rw [if_neg hsfx]
                rw [if_neg ?hcond2]
                case hcond2 =>
                  intro habs
                  have : shapeEqB c0 node = true := by
                    rw [← reconLoop_cond hc0 hn]
                    exact ⟨habs, by simpa using hsfx⟩
                  rw [this] at hsh
                  cases hsh
                exact hrest.1 hname
            · intro hname
              unfold reconLoop
              rw [if_neg (by rw [hc0]; exact Bool.false_ne_true)]
              by_cases hsfx : c0.suffix ≠ node.suffix
              · rw [if_pos hsfx]
                exact hrest.2 hname
              · rw [if_neg hsfx]
                rw [if_neg ?hcond3]
                case hcond3 =>
                  intro habs
                  have : shapeEqB c0 node = true := by
                    rw [← reconLoop_cond hc0 hn]
                    exact ⟨habs, by simpa using hsfx⟩
                  rw [this] at hsh
                  cases hsh
                exact hrest.2 hname

/-- Witness for C6: shape-matched sibling with equal name is reused, on
the concrete one-sibling list of the `/:a(x)` trie. -/
theorem c6_sibling_reconciliation_witness :
    reconLoop (Node.mk ("a").data [] [] (":a(x)").data [] false false [] [] []
        (some (mustCompile ("x").data)))
      (defStep newDefault ("/:a(x)").data).root.varyChildren =
    .ok (some ((defStep newDefault ("/:a(x)").data).root.varyChildren.headD
      (Node.blank []))) := by
  have h := (c6_sibling_reconciliation.1
    (defStep newDefault ("/:a(x)").data).root.varyChildren
    (Node.mk ("a").data [] [] (":a(x)").data [] false false [] [] []
      (some (mustCompile ("x").data)))
    (by decide) (by rfl)).2
    ((defStep newDefault ("/:a(x)").data).root.varyChildren.headD (Node.blank []))
  exact (h (by rfl)).1 (by rfl)

/-! ## Re-defining walks the same locations (C7 infrastructure) -/

theorem alGet_alPut_ne {l : List (Str × Node)} {k k' : Str} {v : Node}
    (h : k' ≠ k) : alGet (alPut l k v) k' = alGet l k' := by
  induction l with
  | nil =>
      simp only [alPut, alGet]
      rw [if_neg fun hh => h hh.symm]
  | cons hd tl ih =>
      obtain ⟨k0, v0⟩ := hd
      simp only [alPut]
      by_cases hk : k0 = k
      · rw [if_pos hk]
        simp only [alGet]
        rw [if_neg fun hh => h hh.symm, if_neg (by rw [hk]; exact fun hh => h hh.symm)]
      · rw [if_neg hk]
        simp only [alGet]
        by_cases hk' : k0 = k'
        · rw [if_pos hk', if_pos hk']
        · rw [if_neg hk', if_neg hk']
          exact ih

theorem alPut_alPut_same (l : List (Str × Node)) (k : Str) (a b : Node) :
    alPut (alPut l k a) k b = alPut l k b := by
  induction l with
  | nil => simp [alPut]
  | cons hd tl ih =>
      obtain ⟨k0, v0⟩ := hd
      simp only [alPut]
      by_cases hk : k0 = k
      · simp [hk, alPut]
      · simp only [if_neg hk, alPut, if_neg hk]
        rw [ih]

theorem replaceVary_replaceVary {l : List Node} {sg : VarySig} {a b : Node}
    (ha : a.sig = sg) : replaceVary sg b (replaceVary sg a l) = replaceVary sg b l := by
  induction l with
  | nil => simp [replaceVary]
  | cons c cs ih =>
      simp only [replaceVary]
      by_cases hc : c.sig = sg
      · rw [if_pos hc]
        simp only [replaceVary]
        rw [if_pos ha, if_pos hc]
      · rw [if_neg hc]
        simp only [replaceVary, if_neg hc]
        rw [ih]

theorem setLoc_setLoc {n a b : Node} {loc : ChildLoc}
    (ha : ∀ sg, loc = .vary sg → a.sig = sg) :
    setLoc (setLoc n loc a) loc b = setLoc n loc b := by
  cases loc with
  | lit key =>
      simp only [setLoc, Node.children_setChildren]
      cases n
      simp only [Node.setChildren]
      rw [alPut_alPut_same]
  | vary sg =>
      simp only [setLoc, Node.varyChildren_setVaryChildren]
      cases n
      simp only [Node.setVaryChildren]
      rw [replaceVary_replaceVary (ha sg rfl)]

theorem markEnd_markEnd_same (n : Node) (p : Str) :
    (n.markEnd p).markEnd p = n.markEnd p := by
  cases n with
  | mk nm a pat sg sf e w vc ch h r =>
      simp only [Node.markEnd]
      by_cases hp : pat = []
      · rw [if_pos hp]
        by_cases hpp : p = []
        · simp [hpp]
        · simp [hpp]
      · rw [if_neg hp]
        simp [hp]

theorem sig_fields {a b : Node} (h : a.sig = b.sig) :
    a.suffix = b.suffix ∧ regexSrc a.regex = regexSrc b.regex ∧ a.wildcard = b.wildcard :=
  ⟨congrArg Prod.fst h, congrArg (fun p => p.2.1) h, congrArg (fun p => p.2.2) h⟩


theorem reconMatches_sig {a b node : Node} (h : a.sig = b.sig) :
    reconMatches a node ↔ reconMatches b node := by
  obtain ⟨h1, h2, h3⟩ := sig_fields h
  unfold reconMatches
  rw [h1]
  have hN : a.regex.isNone = b.regex.isNone := by
    have := congrArg Option.isNone h2
    simpa [regexSrc] using this
  have hS : a.regex.isSome = b.regex.isSome := by
    have := congrArg Option.isSome h2
    simpa [regexSrc] using this
  rw [hN, hS, h2]

theorem reconLoop_none_mem {node : Node} {vc : List Node}
    (h : reconLoop node vc = .ok none) :
    ∀ c ∈ vc, c.wildcard = false ∧ ¬ reconMatches c node := by
  induction vc with
  | nil => intro c hc; cases hc
  | cons c0 cs ih =>
      unfold reconLoop at h
      by_cases hw : c0.wildcard = true
      · rw [if_pos hw] at h
        by_cases hnw : ¬ node.wildcard
        · rw [if_pos hnw] at h
          cases h
        · rw [if_neg hnw] at h
          by_cases hnm : c0.name ≠ node.name
          · rw [if_pos hnm] at h
            cases h
          · rw [if_neg hnm] at h
            cases h
      · rw [if_neg hw] at h
        intro c hc
        by_cases hsfx : c0.suffix ≠ node.suffix
        · rw [if_pos hsfx] at h
          rcases List.mem_cons.mp hc with hc | hc
          · refine ⟨by rw [hc]; simpa using hw, ?_⟩
            rw [hc]
            intro habs
            exact hsfx habs.1
          · exact ih h c hc
        · rw [if_neg hsfx] at h
          by_cases hcond : (¬ node.wildcard ∧ c0.regex.isNone ∧ node.regex.isNone)
              ∨ (c0.regex.isSome ∧ node.regex.isSome ∧ regexSrc c0.regex = regexSrc node.regex)
          · rw [if_pos hcond] at h
            split at h <;> cases h
          · rw [if_neg hcond] at h
            rcases List.mem_cons.mp hc with hc | hc
            · refine ⟨by rw [hc]; simpa using hw, ?_⟩
              rw [hc]
              intro habs
              exact hcond habs.2
            · exact ih h c hc

theorem reconLoop_some_spec {node c : Node} {vc : List Node}
    (h : reconLoop node vc = .ok (some c)) :
    c.name = node.name ∧
    ((c.wildcard = true ∧ node.wildcard = true) ∨
      (c.wildcard = false ∧ reconMatches c node)) := by
  induction vc with
  | nil => cases h
  | cons c0 cs ih =>
      unfold reconLoop at h
      by_cases hw : c0.wildcard = true
      · rw [if_pos hw] at h
        by_cases hnw : ¬ node.wildcard
        · rw [if_pos hnw] at h
          cases h
        · rw [if_neg hnw] at h
          by_cases hnm : c0.name ≠ node.name
          · rw [if_pos hnm] at h
            cases h
          · rw [if_neg hnm] at h
            cases h
            exact ⟨by simpa using hnm, Or.inl ⟨hw, by simpa using hnw⟩⟩
      · rw [if_neg hw] at h
        by_cases hsfx : c0.suffix ≠ node.suffix
        · rw [if_pos hsfx] at h
          exact ih h
        · rw [if_neg hsfx] at h
          by_cases hcond : (¬ node.wildcard ∧ c0.regex.isNone ∧ node.regex.isNone)
              ∨ (c0.regex.isSome ∧ node.regex.isSome ∧ regexSrc c0.regex = regexSrc node.regex)
          · rw [if_pos hcond] at h
            by_cases hnm : c0.name ≠ node.name
            · rw [if_pos hnm] at h
              cases h
            · rw [if_neg hnm] at h
              cases h
              refine ⟨by simpa using hnm, Or.inr ⟨by simpa using hw, ?_, hcond⟩⟩
              simpa using hsfx
          · rw [if_neg hcond] at h
            exact ih h

/-- The sibling reused by the reconciliation loop is also the first
signature match of the list. -/
theorem reconLoop_findVary {node c0 : Node} {vc : List Node}
    (h : reconLoop node vc = .ok (some c0)) : findVary c0.sig vc = some c0 := by
  induction vc with
  | nil => cases h
  | cons c cs ih =>
      unfold reconLoop at h
      by_cases hw : c.wildcard = true
      · rw [if_pos hw] at h
        by_cases hnw : ¬ node.wildcard
        · rw [if_pos hnw] at h
          cases h
        · rw [if_neg hnw] at h
          by_cases hnm : c.name ≠ node.name
          · rw [if_pos hnm] at h
            cases h
          · rw [if_neg hnm] at h
            cases h
            simp [findVary]
      · rw [if_neg hw] at h
        by_cases hsfx : c.suffix ≠ node.suffix
        · rw [if_pos hsfx] at h
          have hspec := reconLoop_some_spec h
          unfold findVary
          rw [if_neg ?hne]
          case hne =>
            intro habs
            rcases hspec.2 with ⟨hcw, -⟩ | ⟨-, hm⟩
            · have hww := (sig_fields habs).2.2
              rw [hcw] at hww
              exact hw hww
            · exact hsfx ((sig_fields habs).1.trans hm.1)
          exact ih h
        · rw [if_neg hsfx] at h
          by_cases hcond : (¬ node.wildcard ∧ c.regex.isNone ∧ node.regex.isNone)
              ∨ (c.regex.isSome ∧ node.regex.isSome ∧ regexSrc c.regex = regexSrc node.regex)
          · rw [if_pos hcond] at h
            by_cases hnm : c.name ≠ node.name
            · rw [if_pos hnm] at h
              cases h
            · rw [if_neg hnm] at h
              cases h
              simp [findVary]
          · rw [if_neg hcond] at h
            have hspec := reconLoop_some_spec h
            unfold findVary
            rw [if_neg ?hne2]
            case hne2 =>
              intro habs
              rcases hspec.2 with ⟨hcw, -⟩ | ⟨-, hm⟩
              · have hww := (sig_fields habs).2.2
                rw [hcw] at hww
                exact hw hww
              · exact hcond ((reconMatches_sig habs).mpr hm).2
            exact ih h

/-- Replacing the reused sibling by a node of the same signature and
name makes a re-run of the reconciliation loop reuse the replacement. -/
theorem reconLoop_rerun_reuse {node c0 X : Node} {vc : List Node}
    (h : reconLoop node vc = .ok (some c0))
    (hsig : X.sig = c0.sig) (hname : X.name = c0.name) :
    reconLoop node (replaceVary c0.sig X vc) = .ok (some X) := by
  induction vc with
  | nil => cases h
  | cons c cs ih =>
      unfold reconLoop at h
      by_cases hw : c.wildcard = true
      · rw [if_pos hw] at h
        by_cases hnw : ¬ node.wildcard
        · rw [if_pos hnw] at h
          cases h
        · rw [if_neg hnw] at h
          by_cases hnm : c.name ≠ node.name
          · rw [if_pos hnm] at h
            cases h
          · rw [if_neg hnm] at h
            cases h
            have hrep : replaceVary c0.sig X (c0 :: cs) = X :: cs := by
              unfold replaceVary
              rw [if_pos rfl]
            rw [hrep]
            unfold reconLoop
            have hXw : X.wildcard = true := by
              rw [(sig_fields hsig).2.2]
              exact hw
            rw [if_pos hXw, if_neg hnw,
              if_neg (by rw [hname]; simpa using hnm)]
      · rw [if_neg hw] at h
        by_cases hsfx : c.suffix ≠ node.suffix
        · rw [if_pos hsfx] at h
          have hspec := reconLoop_some_spec h
          have hne : ¬ c.sig = c0.sig := by
            intro habs
            rcases hspec.2 with ⟨hcw, -⟩ | ⟨-, hm⟩
            · have hww := (sig_fields habs).2.2
              rw [hcw] at hww
              exact hw hww
            · exact hsfx ((sig_fields habs).1.trans hm.1)
          simp only [replaceVary, if_neg hne]
          unfold reconLoop
          rw [if_neg hw, if_pos hsfx]
          exact ih h
        · rw [if_neg hsfx] at h
          by_cases hcond : (¬ node.wildcard ∧ c.regex.isNone ∧ node.regex.isNone)
              ∨ (c.regex.isSome ∧ node.regex.isSome ∧ regexSrc c.regex = regexSrc node.regex)
          · rw [if_pos hcond] at h
            by_cases hnm : c.name ≠ node.name
            · rw [if_pos hnm] at h
              cases h
            · rw [if_neg hnm] at h
              cases h
              have hrep : replaceVary c0.sig X (c0 :: cs) = X :: cs := by
                unfold replaceVary
                rw [if_pos rfl]
              rw [hrep]
              unfold reconLoop
              have hXw : X.wildcard = false := by
                rw [(sig_fields hsig).2.2]
                simpa using hw
              have hXm : reconMatches X node := (reconMatches_sig hsig).mpr
                ⟨by simpa using hsfx, hcond⟩
              rw [if_neg (by rw [hXw]; exact Bool.false_ne_true)]
              rw [if_neg (by simpa using hXm.1)]
              rw [if_pos hXm.2]
              rw [if_neg (by rw [hname]; simpa using hnm)]
          · rw [if_neg hcond] at h
            have hspec := reconLoop_some_spec h
            have hne : ¬ c.sig = c0.sig := by
              intro habs
              rcases hspec.2 with ⟨hcw, -⟩ | ⟨-, hm⟩
              · have hww := (sig_fields habs).2.2
                rw [hcw] at hww
                exact hw hww
              · exact hcond ((reconMatches_sig habs).mpr hm).2
            simp only [replaceVary, if_neg hne]
            unfold reconLoop
            rw [if_neg hw, if_neg hsfx, if_neg hcond]
            exact ih h

theorem findVary_replaceVary {l : List Node} {sg : VarySig} {X c : Node}
    (h : findVary sg l = some c) (hX : X.sig = sg) :
    findVary sg (replaceVary sg X l) = some X := by
  induction l with
  | nil => cases h
  | cons c0 cs ih =>
      unfold findVary at h
      by_cases hc : c0.sig = sg
      · simp only [replaceVary, if_pos hc]
        unfold findVary
        rw [if_pos hX]
      · rw [if_neg hc] at h
        simp only [replaceVary, if_neg hc]
        unfold findVary
        rw [if_neg hc]
        exact ih h

theorem findVary_unique {l : List Node} {sg : VarySig} {x : Node}
    (hmem : x ∈ l) (hx : x.sig = sg) (huniq : ∀ c ∈ l, c.sig = sg → c = x) :
    findVary sg l = some x := by
  induction l with
  | nil => cases hmem
  | cons c0 cs ih =>
      unfold findVary
      by_cases hc : c0.sig = sg
      · rw [if_pos hc]
        rw [huniq c0 (by simp) hc]
      · rw [if_neg hc]
        rcases List.mem_cons.mp hmem with hm | hm
        · rw [← hm] at hc
          exact absurd hx hc
        · exact ih hm (fun c hcc => huniq c (by simp [hcc]))

theorem replaceVary_split {l : List Node} {sg : VarySig} {m : Node} (v : Node)
    (hfind : findVary sg l = some m) :
    ∃ pre post, l = pre ++ m :: post ∧ (∀ x ∈ pre, ¬ x.sig = sg) ∧ m.sig = sg ∧
      replaceVary sg v l = pre ++ v :: post := by
  induction l with
  | nil => cases hfind
  | cons c0 cs ih =>
      unfold findVary at hfind
      by_cases hc : c0.sig = sg
      · rw [if_pos hc] at hfind
        cases hfind
        refine ⟨[], cs, by simp, by simp, hc, ?_⟩
        simp [replaceVary, hc]
      · rw [if_neg hc] at hfind
        obtain ⟨pre, post, h1, h2, h3, h4⟩ := ih hfind
        refine ⟨c0 :: pre, post, by rw [h1]; rfl, ?_, h3, ?_⟩
        · intro x hx
          rcases List.mem_cons.mp hx with hm | hm
          · rw [hm]
            exact hc
          · exact h2 x hm
        · simp only [replaceVary, if_neg hc]
          rw [h4]
          rfl

/-- If every other element is skipped by the loop, the single
signature match (of the right name) is reused wherever it sits. -/
theorem reconLoop_of_split {node X : Node} (pre post : List Node)
    (hpre : ∀ c ∈ pre, c.wildcard = false ∧ ¬ reconMatches c node)
    (hsig : X.sig = node.sig) (hname : X.name = node.name) :
    reconLoop node (pre ++ X :: post) = .ok (some X) := by
  induction pre with
  | nil =>
      simp only [List.nil_append]
      unfold reconLoop
      obtain ⟨hsfx, hsrc, hwc⟩ := sig_fields hsig
      by_cases hw : node.wildcard = true
      · rw [if_pos (by rw [hwc]; exact hw)]
        rw [if_neg (by simpa using hw), if_neg (by simpa using hname)]
      · have hXw : X.wildcard = false := by
          rw [hwc]
          simpa using hw
        rw [if_neg (by rw [hXw]; exact Bool.false_ne_true)]
        rw [if_neg (by simpa using hsfx)]
        have hm : reconMatches X node := by
          refine ⟨hsfx, ?_⟩
          cases hr : node.regex with
          | none =>
              refine Or.inl ⟨by simpa using hw, ?_, by simp [hr]⟩
              have hXr : regexSrc X.regex = none := by
                rw [hsrc, hr]
                rfl
              cases hXx : X.regex with
              | none => simp
              | some r =>
                  rw [hXx] at hXr
                  simp [regexSrc] at hXr
          | some r =>
              refine Or.inr ⟨?_, by simp [hr], by rw [hsrc, hr]⟩
              have hXr : (regexSrc X.regex).isSome = true := by
                rw [hsrc, hr]
                rfl
              cases hXx : X.regex with
              | none =>
                  rw [hXx] at hXr
                  simp [regexSrc] at hXr
              | some r2 => simp
        rw [if_pos hm.2, if_neg (by simpa using hname)]
  | cons c cs ih =>
      have hc := hpre c (by simp)
      simp only [List.cons_append]
      unfold reconLoop
      rw [if_neg (by rw [hc.1]; exact Bool.false_ne_true)]
      by_cases hsfx : c.suffix ≠ node.suffix
      · rw [if_pos hsfx]
        exact ih (fun x hx => hpre x (by simp [hx]))
      · rw [if_neg hsfx]
        rw [if_neg ?hcond]
        case hcond =>
          intro habs
          exact hc.2 ⟨by simpa using hsfx, habs⟩
        exact ih (fun x hx => hpre x (by simp [hx]))

/-- The branch taken by `parseParam` depends only on the segment text,
never on the parent node. -/
theorem parseParam_det (segment name0 : Str) :
    (∃ e, ∀ q : Node, parseParam q segment name0 = .error e) ∨
    (∃ nf sf rs w, ∀ q : Node, parseParam q segment name0 = attachParam q segment nf sf rs w) := by
  cases hlast : name0.getLast? with
  | none =>
      refine Or.inl ⟨.invalid, fun q => ?_⟩
      unfold parseParam
      rw [hlast]
  | some lastC =>
      by_cases hstar : lastC = '*'
      · refine Or.inr ⟨name0.dropLast, [], none, true, fun q => ?_⟩
        unfold parseParam
        rw [hlast]
        dsimp only
        rw [if_pos hstar]
      · by_cases hsfx : suffixFind name0 ≠ [] ∧ (suffixFind name0).drop 1 = []
        · refine Or.inl ⟨.invalid, fun q => ?_⟩
          unfold parseParam
          rw [hlast]
          dsimp only
          rw [if_neg hstar, if_pos hsfx]
        · by_cases hpar : (if suffixFind name0 ≠ [] then
              name0.take (name0.length - (suffixFind name0).length) else name0).getLastD ' ' = ')'
          · cases hidx : idxOfChar '(' (if suffixFind name0 ≠ [] then
                name0.take (name0.length - (suffixFind name0).length) else name0) with
            | none =>
                refine Or.inr ⟨(if suffixFind name0 ≠ [] then
                    name0.take (name0.length - (suffixFind name0).length) else name0), ((suffixFind name0).drop 1), none, false, fun q => ?_⟩
                unfold parseParam
                rw [hlast]
                dsimp only
                rw [if_neg hstar, if_neg hsfx, if_pos hpar, hidx]
            | some i =>
                by_cases hi : 0 < i
                · by_cases hrs : ¬ ((if suffixFind name0 ≠ [] then
                      name0.take (name0.length - (suffixFind name0).length)
                      else name0).drop (i + 1)).dropLast.isEmpty
                  · refine Or.inr ⟨(if suffixFind name0 ≠ [] then
                    name0.take (name0.length - (suffixFind name0).length) else name0).take i, ((suffixFind name0).drop 1),
                      some (((if suffixFind name0 ≠ [] then
                    name0.take (name0.length - (suffixFind name0).length) else name0).drop (i + 1)).dropLast), false, fun q => ?_⟩
                    unfold parseParam
                    rw [hlast]
                    dsimp only
                    rw [if_neg hstar, if_neg hsfx, if_pos hpar, hidx]
                    dsimp only
                    rw [if_pos hi, if_pos hrs]
                  · refine Or.inl ⟨.invalid, fun q => ?_⟩
                    unfold parseParam
                    rw [hlast]
                    dsimp only
                    rw [if_neg hstar, if_neg hsfx, if_pos hpar, hidx]
                    dsimp only
                    rw [if_pos hi, if_neg hrs]
                · refine Or.inr ⟨(if suffixFind name0 ≠ [] then
                    name0.take (name0.length - (suffixFind name0).length) else name0), ((suffixFind name0).drop 1), none, false, fun q => ?_⟩
                  unfold parseParam
                  rw [hlast]
                  dsimp only
                  rw [if_neg hstar, if_neg hsfx, if_pos hpar, hidx]
                  dsimp only
                  rw [if_neg hi]
          · refine Or.inr ⟨(if suffixFind name0 ≠ [] then
                    name0.take (name0.length - (suffixFind name0).length) else name0), ((suffixFind name0).drop 1), none, false, fun q => ?_⟩
            unfold parseParam
            rw [hlast]
            dsimp only
            rw [if_neg hstar, if_neg hsfx, if_neg hpar]

theorem reconMatches_self {n : Node} (h : n.wildcard = false) : reconMatches n n := by
  refine ⟨rfl, ?_⟩
  cases hr : n.regex with
  | none => exact Or.inl ⟨by simp [h], by simp [hr], by simp [hr]⟩
  | some r => exact Or.inr ⟨by simp [hr], by simp [hr], rfl⟩

theorem dropLast_ne_self {l : Str} (h : l ≠ []) : l.dropLast ≠ l := by
  intro habs
  have := congrArg List.length habs
  rw [List.length_dropLast] at this
  have hpos : 0 < l.length := List.length_pos.mpr h
  omega

theorem litKey_ne_nil {c0 : Char} {cs : Str} {ic : Bool}
    (hdc : ¬ isDoubleColon (c0 :: cs) = true) : litKey (c0 :: cs) ic ≠ [] := by
  unfold litKey
  rw [if_neg hdc]
  cases ic <;> simp [lowerStr]

/-- Re-running `parseNode` on a parent whose child at `loc` has been
replaced by a node of the same signature and name either finds the
replacement at the same location (usual case), or - for a
literal-wildcard segment such as `"ab*"`, whose child is stored under
the key minus the trailing star - recreates a value-equal wildcard
child at the same location. -/
theorem parseNode_rerun {parent p1 child X : Node} {seg : Str} {ic : Bool} {loc : ChildLoc}
    (h : parseNode parent seg ic = .ok (p1, loc))
    (hget : getLoc p1 loc = some child)
    (hsig : X.sig = child.sig) (hname : X.name = child.name) :
    (parseNode (setLoc p1 loc X) seg ic = .ok (setLoc p1 loc X, loc) ∧
      getLoc (setLoc p1 loc X) loc = some X) ∨
    (child.wildcard = true ∧ (∃ key, loc = .lit key) ∧
      parseNode (setLoc p1 loc X) seg ic =
        .ok (setLoc (setLoc p1 loc X) loc child, loc) ∧
      getLoc (setLoc (setLoc p1 loc X) loc child) loc = some child) := by
  unfold parseNode at h
  dsimp only at h
  set key := litKey seg ic with hkey
  cases hget0 : alGet parent.children key with
  | some c =>
      rw [hget0] at h
      cases h
      have hqc : alGet ((setLoc parent (.lit key) X).children) key = some X := by
        simp only [setLoc, Node.children_setChildren]
        exact alGet_alPut_self _ _ _
      refine Or.inl ⟨?_, ?_⟩
      · unfold parseNode
        dsimp only
        rw [← hkey, hqc]
      · simp only [getLoc]
        exact hqc
  | none =>
      rw [hget0] at h
      cases seg with
      | nil =>
          cases h
          simp only [getLoc, setLoc, Node.children_setChildren] at hget
          rw [alGet_alPut_self] at hget
          injection hget with hch
          subst hch
          have hqc : alGet ((setLoc (setLoc parent (.lit key) (Node.blank []))
              (.lit key) X).children) key = some X := by
            simp only [setLoc, Node.children_setChildren]
            exact alGet_alPut_self _ _ _
          refine Or.inl ⟨?_, ?_⟩
          · unfold parseNode
            dsimp only
            rw [← hkey, hqc]
          · simp only [getLoc]
            exact hqc
      | cons c0 cs =>
          simp only at h
          by_cases hdc : isDoubleColon (c0 :: cs)
          · rw [if_pos hdc] at h
            cases h
            simp only [getLoc, setLoc, Node.children_setChildren] at hget
            rw [alGet_alPut_self] at hget
            injection hget with hch
            subst hch
            have hqc : alGet ((setLoc (setLoc parent (.lit key) (Node.blank (c0 :: cs)))
                (.lit key) X).children) key = some X := by
              simp only [setLoc, Node.children_setChildren]
              exact alGet_alPut_self _ _ _
            refine Or.inl ⟨?_, ?_⟩
            · unfold parseNode
              dsimp only
              rw [← hkey, hqc]
            · simp only [getLoc]
              exact hqc
          · rw [if_neg hdc] at h
            by_cases hcolon : c0 = ':'
            · rw [if_pos hcolon] at h
              rcases parseParam_det (c0 :: cs) cs with ⟨e, he⟩ | ⟨nf, sf, rs, w, hqall⟩
              · rw [he parent] at h
                cases h
              · rw [hqall parent] at h
                unfold attachParam at h
                dsimp only at h
                by_cases hword : ¬ isWord nf
                · rw [if_pos hword] at h
                  cases h
                · rw [if_neg hword] at h
                  set node0 := Node.mk nf [] [] (c0 :: cs) sf false w [] [] []
                    (rs.map mustCompile) with hnode0
                  cases hrec : reconLoop node0 parent.varyChildren with
                  | error e => rw [hrec] at h; cases h
                  | ok o =>
                      rw [hrec] at h
                      cases o with
                      | some cr =>
                          cases h
                          simp only [getLoc] at hget
                          have hfv : findVary cr.sig parent.varyChildren = some cr :=
                            reconLoop_findVary hrec
                          rw [hfv] at hget
                          injection hget with hch
                          subst hch
                          refine Or.inl ⟨?_, ?_⟩
                          · unfold parseNode
                            dsimp only
                            rw [← hkey]
                            have hqc : alGet ((setLoc parent (.vary cr.sig) X).children)
                                key = none := by
                              simp only [setLoc, Node.children_setVaryChildren]
                              exact hget0
                            rw [hqc]
                            dsimp only
                            rw [if_neg hdc, if_pos hcolon,
                              hqall (setLoc parent (.vary cr.sig) X)]
                            unfold attachParam
                            dsimp only
                            rw [if_neg hword, ← hnode0]
                            have hvc : (setLoc parent (.vary cr.sig) X).varyChildren
                                = replaceVary cr.sig X parent.varyChildren := by
                              simp only [setLoc, Node.varyChildren_setVaryChildren]
                            rw [hvc, reconLoop_rerun_reuse hrec hsig hname]
                            dsimp only
                            rw [hsig]
                          · simp only [getLoc, setLoc, Node.varyChildren_setVaryChildren]
                            exact findVary_replaceVary hfv hsig
                      | none =>
                          cases h
                          set vc1 := if 1 < (parent.varyChildren ++ [node0]).length
                            then sortVary (parent.varyChildren ++ [node0])
                            else parent.varyChildren ++ [node0] with hvc1
                          simp only [getLoc, Node.varyChildren_setVaryChildren] at hget
                          have hnone := reconLoop_none_mem hrec
                          have hperm : vc1.Perm (parent.varyChildren ++ [node0]) := by
                            rw [hvc1]
                            by_cases hlen : 1 < (parent.varyChildren ++ [node0]).length
                            · rw [if_pos hlen]
                              exact sortVary_perm _
                            · rw [if_neg hlen]
                          have hne : ∀ c ∈ parent.varyChildren, ¬ c.sig = node0.sig := by
                            intro c hc habs
                            obtain ⟨hcw, hcm⟩ := hnone c hc
                            by_cases hw0 : node0.wildcard = true
                            · have := (sig_fields habs).2.2
                              rw [hw0] at this
                              rw [this] at hcw
                              cases hcw
                            · exact hcm ((reconMatches_sig habs).mpr
                                (reconMatches_self (by simpa using hw0)))
                          have hchild : child = node0 := by
                            have hmem : child ∈ parent.varyChildren ++ [node0] :=
                              hperm.mem_iff.mp (findVary_mem hget)
                            rcases List.mem_append.mp hmem with hm | hm
                            · exact absurd (findVary_sig hget) (hne child hm)
                            · simpa using hm
                          subst hchild
                          obtain ⟨pre, post, hsplit, hprefree, -, hrepl⟩ :=
                            replaceVary_split X hget
                          have hpre : ∀ c ∈ pre, c.wildcard = false ∧
                              ¬ reconMatches c node0 := by
                            intro c hc
                            have hcv : c ∈ vc1 := by
                              rw [hsplit]
                              exact List.mem_append.mpr (Or.inl hc)
                            rcases List.mem_append.mp (hperm.mem_iff.mp hcv) with hm | hm
                            · exact hnone c hm
                            · exfalso
                              exact hprefree c hc (by rw [show c = node0 from by simpa using hm])
                          refine Or.inl ⟨?_, ?_⟩
                          · unfold parseNode
                            dsimp only
                            rw [← hkey]
                            have hqc : alGet ((setLoc (parent.setVaryChildren vc1)
                                (.vary node0.sig) X).children) key = none := by
                              simp only [setLoc, Node.children_setVaryChildren]
                              exact hget0
                            rw [hqc]
                            dsimp only
                            rw [if_neg hdc, if_pos hcolon,
                              hqall (setLoc (parent.setVaryChildren vc1) (.vary node0.sig) X)]
                            unfold attachParam
                            dsimp only
                            rw [if_neg hword, ← hnode0]
                            have hvc : (setLoc (parent.setVaryChildren vc1)
                                (.vary node0.sig) X).varyChildren
                                = replaceVary node0.sig X vc1 := by
                              simp only [setLoc, Node.varyChildren_setVaryChildren]
                            rw [hvc, hrepl, reconLoop_of_split pre post hpre hsig hname]
                            dsimp only
                            rw [hsig]
                          · simp only [getLoc, setLoc, Node.varyChildren_setVaryChildren]
                            exact findVary_replaceVary hget hsig
            · rw [if_neg hcolon] at h
              by_cases hbad : c0 = '*' ∨ c0 = '(' ∨ c0 = ')'
              · rw [if_pos hbad] at h
                cases h
              · rw [if_neg hbad] at h
                by_cases hstar : (c0 :: cs).getLastD ' ' = '*'
                · rw [if_pos hstar] at h
                  cases h
                  simp only [getLoc, setLoc, Node.children_setChildren] at hget
                  rw [alGet_alPut_self] at hget
                  injection hget with hch
                  subst hch
                  have hkne : key ≠ [] := litKey_ne_nil hdc
                  have hne1 : key ≠ key.dropLast :=
                    fun habs => dropLast_ne_self hkne habs.symm
                  have hqc : alGet ((setLoc (setLoc parent (.lit key.dropLast)
                      ((Node.blank (c0 :: cs)).setWildcard true)) (.lit key.dropLast)
                      X).children) key = none := by
                    simp only [setLoc, Node.children_setChildren]
                    rw [alGet_alPut_ne hne1, alGet_alPut_ne hne1]
                    exact hget0
                  refine Or.inr ⟨by simp, ⟨key.dropLast, rfl⟩, ?_, ?_⟩
                  · unfold parseNode
                    dsimp only
                    rw [← hkey, hqc]
                    dsimp only
                    rw [if_neg hdc, if_neg hcolon, if_neg hbad, if_pos hstar]
                  · simp only [getLoc, setLoc, Node.children_setChildren]
                    rw [alGet_alPut_self]
                · rw [if_neg hstar] at h
                  cases h
                  simp only [getLoc, setLoc, Node.children_setChildren] at hget
                  rw [alGet_alPut_self] at hget
                  injection hget with hch
                  subst hch
                  have hqc : alGet ((setLoc (setLoc parent (.lit key) (Node.blank (c0 :: cs)))
                      (.lit key) X).children) key = some X := by
                    simp only [setLoc, Node.children_setChildren]
                    exact alGet_alPut_self _ _ _
                  refine Or.inl ⟨?_, ?_⟩
                  · unfold parseNode
                    dsimp only
                    rw [← hkey, hqc]
                  · simp only [getLoc]
                    exact hqc

/-- Re-running `defineNode` on its own output walks exactly the same
location path; with the same pattern it is a no-op. -/
theorem defineNode_rerun {segs : List Str} {parent parent1 : Node} {lp : List ChildLoc}
    {ic : Bool} {pat : Str} (pat' : Str)
    (h : defineNode parent segs ic pat = .ok (parent1, lp)) :
    ∃ parent2, defineNode parent1 segs ic pat' = .ok (parent2, lp) ∧
      (pat' = pat → parent2 = parent1) := by
  induction segs generalizing parent parent1 lp with
  | nil => simp [defineNode] at h
  | cons seg rest ih =>
      unfold defineNode at h
      cases hpn : parseNode parent seg ic with
      | error e => rw [hpn] at h; cases h
      | ok pr =>
          obtain ⟨p1, loc⟩ := pr
          rw [hpn] at h
          dsimp only at h
          cases hget : getLoc p1 loc with
          | none => rw [hget] at h; cases h
          | some child =>
              rw [hget] at h
              dsimp only at h
              by_cases hre : rest.isEmpty
              · rw [if_pos hre] at h
                cases h
                rcases parseNode_rerun hpn hget (Node.sig_markEnd child pat)
                    (Node.name_markEnd child pat) with
                  ⟨hpn2, hget2⟩ | ⟨hwild, ⟨k, hlock⟩, hpn2, hget2⟩
                · refine ⟨setLoc (setLoc p1 loc (child.markEnd pat)) loc
                    ((child.markEnd pat).markEnd pat'), ?_, ?_⟩
                  · unfold defineNode
                    rw [hpn2]
                    dsimp only
                    rw [hget2]
                    dsimp only
                    rw [if_pos hre]
                  · intro hpp
                    rw [hpp, markEnd_markEnd_same]
                    exact setLoc_setLoc fun sg hl =>
                      (Node.sig_markEnd child pat).trans (getLoc_vary_sig (hl ▸ hget))
                · have hvac : ∀ sg, loc = ChildLoc.vary sg → child.sig = sg := by
                    intro sg hl
                    rw [hlock] at hl
                    cases hl
                  have hvacM : ∀ sg, loc = ChildLoc.vary sg →
                      (child.markEnd pat).sig = sg := by
                    intro sg hl
                    rw [hlock] at hl
                    cases hl
                  refine ⟨setLoc (setLoc (setLoc p1 loc (child.markEnd pat)) loc child) loc
                    (child.markEnd pat'), ?_, ?_⟩
                  · unfold defineNode
                    rw [hpn2]
                    dsimp only
                    rw [hget2]
                    dsimp only
                    rw [if_pos hre]
                  · intro hpp
                    rw [hpp, setLoc_setLoc hvac, setLoc_setLoc hvacM]
              · rw [if_neg hre] at h
                by_cases hwild : child.wildcard
                · rw [if_pos hwild] at h
                  cases h
                · rw [if_neg hwild] at h
                  cases hrec : defineNode child rest ic pat with
                  | error e => rw [hrec] at h; cases h
                  | ok pr2 =>
                      obtain ⟨child2, lp2⟩ := pr2
                      rw [hrec] at h
                      cases h
                      have hscal := defineNode_scalars hrec
                      have hsig : child2.sig = child.sig := sig_eq_of_sameScalars hscal
                      have hname : child2.name = child.name := hscal.1
                      rcases parseNode_rerun hpn hget hsig hname with
                        ⟨hpn2, hget2⟩ | ⟨hw2, -, -, -⟩
                      · obtain ⟨child3, hrec2, heq⟩ := ih hrec
                        have hw2b : ¬ child2.wildcard = true := by
                          rw [(sig_fields hsig).2.2]
                          exact hwild
                        refine ⟨setLoc (setLoc p1 loc child2) loc child3, ?_, ?_⟩
                        · unfold defineNode
                          rw [hpn2]
                          dsimp only
                          rw [hget2]
                          dsimp only
                          rw [if_neg hre, if_neg hw2b, hrec2]
                        · intro hpp
                          rw [heq hpp]
                          exact setLoc_setLoc fun sg hl =>
                            hsig.trans (getLoc_vary_sig (hl ▸ hget))
                      · exact absurd hw2 hwild

theorem containsDD_tail {a : Char} {p : Str} (h : containsDD (a :: p) = false) :
    containsDD p = false := by
  cases p with
  | nil => rfl
  | cons b r =>
      unfold containsDD at h
      simp only [Bool.or_eq_false_iff] at h
      exact h.2

theorem containsDD_append_cons {c : Char} (hc : ¬ c = '/') :
    ∀ p q : Str, containsDD p = false → containsDD q = false →
      containsDD (p ++ c :: q) = false := by
  intro p
  induction p with
  | nil =>
      intro q hp hq
      cases q with
      | nil => rfl
      | cons b r =>
          simp only [List.nil_append]
          unfold containsDD
          simp [hc, hq]
  | cons a p' ih =>
      intro q hp hq
      have hp' : containsDD p' = false := containsDD_tail hp
      cases p' with
      | nil =>
          simp only [List.cons_append, List.nil_append]
          unfold containsDD
          have h2 := ih q rfl hq
          simp only [List.nil_append] at h2
          simp [hc, h2]
      | cons b p'' =>
          simp only [List.cons_append]
          unfold containsDD
          have h1 : ¬ (a = '/' ∧ b = '/') := by
            intro habs
            unfold containsDD at hp
            simp only [Bool.or_eq_false_iff] at hp
            exact absurd habs (by simpa using hp.1)
          have h2 := ih q hp' hq
          simp only [List.cons_append] at h2
          simp [h1, h2]

theorem containsDD_slash_cons {p : Str} (hhead : p.head? ≠ some '/')
    (hp : containsDD p = false) : containsDD ('/' :: p) = false := by
  cases p with
  | nil => rfl
  | cons b r =>
      unfold containsDD
      have hb : ¬ b = '/' := fun habs => hhead (by rw [habs]; rfl)
      simp [hb, hp]

theorem cutQuery_append_query (p q : Str) :
    cutQuery (p ++ '?' :: q) = cutQuery p := by
  induction p with
  | nil => simp [cutQuery]
  | cons c r ih =>
      simp only [List.cons_append]
      unfold cutQuery
      by_cases hc : c = '?'
      · rw [if_pos hc, if_pos hc]
      · rw [if_neg hc, if_neg hc, ih]

theorem stripLeadSlash_slash (p : Str) : stripLeadSlash ('/' :: p) = p := rfl

theorem stripLeadSlash_of_head {c : Char} (hc : ¬ c = '/') (r : Str) :
    stripLeadSlash (c :: r) = c :: r := by
  unfold stripLeadSlash
  split
  · next heq =>
      rw [List.cons.injEq] at heq
      exact absurd heq.1 hc
  · rfl

theorem stripLeadSlash_append_query (p q : Str) :
    stripLeadSlash (p ++ '?' :: q) = stripLeadSlash p ++ '?' :: q := by
  cases p with
  | nil =>
      simp only [List.nil_append]
      exact stripLeadSlash_of_head (by decide) q
  | cons c r =>
      by_cases hc : c = '/'
      · subst hc
        simp only [List.cons_append, stripLeadSlash_slash]
      · simp only [List.cons_append, stripLeadSlash_of_head hc]

/-- Re-defining a pattern that has already been defined is a no-op:
the trie is unchanged and the endpoint's location path is the same. -/
theorem define_rerun {t t1 : Trie} {p : Str} {l1 : List ChildLoc}
    (h : t.define p = .ok (t1, l1)) : t1.define p = .ok (t1, l1) := by
  unfold Trie.define at h
  by_cases hdd : containsDD p
  · rw [if_pos hdd] at h
    cases h
  · rw [if_neg hdd] at h
    cases hdn : defineNode t.root (splitSlash (cutQuery (stripLeadSlash p))) t.ignoreCase p with
    | error e => rw [hdn] at h; cases h
    | ok pr =>
        obtain ⟨r1, lp⟩ := pr
        rw [hdn] at h
        cases h
        obtain ⟨r2, hdn2, heq⟩ := defineNode_rerun p hdn
        rw [heq rfl] at hdn2
        unfold Trie.define
        rw [if_neg hdd]
        dsimp only
        rw [hdn2]

/-- Defining the slash-prefixed form of an already-defined pattern
lands on the same location path (a leading slash is stripped). -/
theorem define_slash {t t1 : Trie} {p : Str} {l1 : List ChildLoc}
    (hhead : p.head? ≠ some '/')
    (h : t.define p = .ok (t1, l1)) :
    ∃ t2, t1.define ('/' :: p) = .ok (t2, l1) := by
  unfold Trie.define at h
  by_cases hdd : containsDD p
  · rw [if_pos hdd] at h
    cases h
  · rw [if_neg hdd] at h
    have hdd2 : ¬ containsDD ('/' :: p) = true := by
      rw [containsDD_slash_cons hhead (by simpa using hdd)]
      exact Bool.false_ne_true
    have hstrip0 : stripLeadSlash p = p := by
      cases p with
      | nil => rfl
      | cons c r => exact stripLeadSlash_of_head (fun habs => hhead (by rw [habs]; rfl)) r
    rw [hstrip0] at h
    cases hdn : defineNode t.root (splitSlash (cutQuery p)) t.ignoreCase p with
    | error e => rw [hdn] at h; cases h
    | ok pr =>
        obtain ⟨r1, lp⟩ := pr
        rw [hdn] at h
        cases h
        obtain ⟨r2, hdn2, -⟩ := defineNode_rerun ('/' :: p) hdn
        refine ⟨{ { t with root := r1 } with root := r2 }, ?_⟩
        unfold Trie.define
        rw [if_neg hdd2]
        dsimp only
        rw [stripLeadSlash_slash, hdn2]

/-- Appending a `?`-query fragment (itself free of `//`) to an
already-defined pattern lands on the same location path (the query is
cut before segmentation). -/
theorem define_query {t t1 : Trie} {p q : Str} {l1 : List ChildLoc}
    (hq : containsDD q = false)
    (h : t.define p = .ok (t1, l1)) :
    ∃ t2, t1.define (p ++ '?' :: q) = .ok (t2, l1) := by
  unfold Trie.define at h
  by_cases hdd : containsDD p
  · rw [if_pos hdd] at h
    cases h
  · rw [if_neg hdd] at h
    have hdd2 : ¬ containsDD (p ++ '?' :: q) = true := by
      rw [containsDD_append_cons (by decide) p q (by simpa using hdd) hq]
      exact Bool.false_ne_true
    cases hdn : defineNode t.root (splitSlash (cutQuery (stripLeadSlash p))) t.ignoreCase p with
    | error e => rw [hdn] at h; cases h
    | ok pr =>
        obtain ⟨r1, lp⟩ := pr
        rw [hdn] at h
        cases h
        obtain ⟨r2, hdn2, -⟩ := defineNode_rerun (p ++ '?' :: q) hdn
        refine ⟨{ { t with root := r1 } with root := r2 }, ?_⟩
        unfold Trie.define
        rw [if_neg hdd2]
        dsimp only
        rw [stripLeadSlash_append_query, cutQuery_append_query, hdn2]

/-- **C7.** Amended: for patterns that `Define` accepts, re-defining
the same pattern is a no-op returning the same endpoint location, a
pattern differing only in a leading slash reaches the same endpoint
location, and appending a `?`-query fragment reaches the same endpoint
location provided the query fragment itself contains no `//` - the
multi-slash check runs on the raw pattern before the query is
stripped, so a query containing `//` makes `Define` panic instead
(see the counterexample). -/
theorem c7_define_algebra :
    (∀ (t t1 : Trie) (p : Str) (l1 : List ChildLoc),
      Trie.define t p = .ok (t1, l1) → Trie.define t1 p = .ok (t1, l1)) ∧
    (∀ (t t1 : Trie) (p : Str) (l1 : List ChildLoc),
      p.head? ≠ some '/' → Trie.define t p = .ok (t1, l1) →
      ∃ t2, Trie.define t1 ('/' :: p) = .ok (t2, l1)) ∧
    (∀ (t t1 : Trie) (p q : Str) (l1 : List ChildLoc),
      containsDD q = false → Trie.define t p = .ok (t1, l1) →
      ∃ t2, Trie.define t1 (p ++ '?' :: q) = .ok (t2, l1)) :=
  ⟨fun _ _ _ _ h => define_rerun h,
   fun _ _ _ _ hh h => define_slash hh h,
   fun _ _ _ _ _ hq h => define_query hq h⟩

/-- **C7, witness.** The three parts of the algebra evaluated on a
concrete trie: after `Define("a/:b")`, re-defining `"a/:b"`,
defining `"/a/:b"`, and defining `"a/:b?x"` all return the endpoint
at the same location path. -/
theorem c7_define_algebra_witness :
    ∃ t1 l1,
      newDefault.define (("a/:b").data) = .ok (t1, l1) ∧
      Trie.define t1 (("a/:b").data) = .ok (t1, l1) ∧
      (∃ t2, Trie.define t1 ('/' :: ("a/:b").data) = .ok (t2, l1)) ∧
      (∃ t3, Trie.define t1 ((("a/:b").data) ++ '?' :: ("x").data) = .ok (t3, l1)) := by
  obtain ⟨hA, hB, hC⟩ := c7_define_algebra
  have h1 : newDefault.define (("a/:b").data) =
      .ok (((newDefault.define (("a/:b").data)).toOption.getD (newDefault, [])).1,
           ((newDefault.define (("a/:b").data)).toOption.getD (newDefault, [])).2) := rfl
  exact ⟨_, _, h1, hA _ _ _ _ h1, hB _ _ _ _ (by decide) h1, hC _ _ _ _ _ (by decide) h1⟩

/-- **C7, counterexample to the unamended claim.** `Define("/a")`
succeeds, but on the resulting trie `Define("/a?b//c")` - the same
pattern with a query fragment containing `//` appended - panics with
the multi-slash error rather than returning the same endpoint: the
`strings.Contains(pattern, "//")` check precedes the query strip. -/
theorem c7_query_multislash_cex :
    errOf ((newDefault.define (("/a").data)).bind
        fun r => Trie.define r.1 (("/a?b//c").data)) = some .multiSlash ∧
    errOf (newDefault.define (("/a").data)) = none :=
  ⟨rfl, rfl⟩
